import Mathlib

/-!
# Verification of the kma-information-retrieval index family

Shallow embedding of the Rust sources under `src/task1/src/` (boolean /
positional / wildcard search indices) together with proofs and refutations
of the specification claims.

Modelling conventions:
* Rust `String`/`&str` values are modelled as `List Char` (`Str` below);
  where the Rust code manipulates raw UTF-8 bytes we encode chars with
  `utf8EncodeChar`.
* Rust `u32`/`usize` values are modelled as `Nat`; every arithmetic step
  that could overflow or underflow in Rust is reached only under the
  hypotheses that make it exact (e.g. deltas of a sorted list).
* `HashMap`/`HashSet` are modelled as association lists / `Finset`.
-/

abbrev Str := List Char

/-! ## Variable-byte codec (src/task1/src/inverted_index.rs, mod vb_encoding) -/

/-- `encode_vb` from inverted_index.rs: little-endian 7-bit groups, the
terminating byte carries the high bit (`+128`). -/
def encode_vb (n : Nat) : List Nat :=
  if n < 128 then [n + 128] else n % 128 :: encode_vb (n / 128)
termination_by n
decreasing_by exact Nat.div_lt_self (by omega) (by norm_num)

/-- The loop body of `decode_vb` from inverted_index.rs: `acc`/`shift` are
the partial value and shift of the number being decoded, `inNum` records
whether at least one byte of the current number has been consumed (the Rust
outer loop pushes the partial value when input ends mid-number). -/
def decode_vb_go : List Nat → Nat → Nat → Bool → List Nat
  | [], acc, _, inNum => if inNum then [acc] else []
  | b :: bs, acc, shift, _ =>
    if b < 128 then decode_vb_go bs (acc + b * 2 ^ shift) (shift + 7) true
    else (acc + (b - 128) * 2 ^ shift) :: decode_vb_go bs 0 0 false

/-- `decode_vb` from inverted_index.rs. -/
def decode_vb (bytes : List Nat) : List Nat := decode_vb_go bytes 0 0 false

/-- The delta-encoding loop of `encode_delta_vb`: emits `encode_vb (n - prev)`
for each element. -/
def encode_deltas : List Nat → Nat → List Nat
  | [], _ => []
  | n :: rest, prev => encode_vb (n - prev) ++ encode_deltas rest n

/-- `encode_delta_vb` from inverted_index.rs: sort, then delta + VB encode. -/
def encode_delta_vb (numbers : List Nat) : List Nat :=
  if numbers.isEmpty then []
  else encode_deltas (List.insertionSort (· ≤ ·) numbers) 0

/-- The prefix-sum loop of `decode_delta_vb`. -/
def prefix_sums : List Nat → Nat → List Nat
  | [], _ => []
  | d :: rest, cur => (cur + d) :: prefix_sums rest (cur + d)

/-- `decode_delta_vb` from inverted_index.rs: VB decode then prefix-sum. -/
def decode_delta_vb (bytes : List Nat) : List Nat := prefix_sums (decode_vb bytes) 0

/-- The list of gaps (deltas) of a list relative to a running predecessor,
as computed inside `encode_delta_vb`. -/
def deltasOf : List Nat → Nat → List Nat
  | [], _ => []
  | n :: rest, prev => (n - prev) :: deltasOf rest n

lemma encode_vb_ne_nil (n : Nat) : encode_vb n ≠ [] := by
  rw [encode_vb]
  split <;> simp

lemma decode_vb_go_encode (m : Nat) :
    ∀ (rest : List Nat) (acc shift : Nat) (flag : Bool),
      decode_vb_go (encode_vb m ++ rest) acc shift flag =
        (acc + m * 2 ^ shift) :: decode_vb_go rest 0 0 false := by
  induction m using Nat.strong_induction_on with
  | _ m ih =>
    intro rest acc shift flag
    rw [encode_vb]
    by_cases h : m < 128
    · rw [if_pos h, List.singleton_append, decode_vb_go,
        if_neg (by omega : ¬ (m + 128 < 128)), Nat.add_sub_cancel]
    · rw [if_neg h, List.cons_append, decode_vb_go,
        if_pos (Nat.mod_lt _ (by norm_num) : m % 128 < 128),
        ih (m / 128) (Nat.div_lt_self (by omega) (by norm_num)) rest _ _ true]
      have h2 : (2 : Nat) ^ (shift + 7) = 2 ^ shift * 128 := by
        rw [pow_add]; norm_num
      have hm : 128 * (m / 128) + m % 128 = m := Nat.div_add_mod m 128
      have key : acc + m % 128 * 2 ^ shift + m / 128 * 2 ^ (shift + 7) =
          acc + m * 2 ^ shift := by
        rw [h2]
        conv_rhs => rw [← hm]
        ring
      rw [key]

lemma decode_vb_encode_deltas (l : List Nat) :
    ∀ prev, decode_vb (encode_deltas l prev) = deltasOf l prev := by
  induction l with
  | nil => intro prev; rfl
  | cons n rest ih =>
    intro prev
    unfold encode_deltas deltasOf decode_vb
    rw [decode_vb_go_encode]
    simp only [Nat.zero_add, pow_zero, Nat.mul_one]
    exact congrArg _ (ih n)

lemma prefix_sums_deltasOf (l : List Nat) :
    ∀ prev, l.Sorted (· ≤ ·) → (∀ x ∈ l, prev ≤ x) →
      prefix_sums (deltasOf l prev) prev = l := by
  induction l with
  | nil => intro _ _ _; rfl
  | cons n rest ih =>
    intro prev hs hp
    have hpn : prev ≤ n := hp n (List.mem_cons_self _ _)
    unfold deltasOf prefix_sums
    have hn : prev + (n - prev) = n := by omega
    rw [hn]
    refine congrArg _ (ih n (List.Sorted.of_cons hs) ?_)
    intro x hx
    exact (List.sorted_cons.mp hs).1 x hx

/-- Round trip of the delta + VB codec against the model's own sort. -/
lemma decode_encode_delta_vb (l : List Nat) :
    decode_delta_vb (encode_delta_vb l) = List.insertionSort (· ≤ ·) l := by
  unfold encode_delta_vb decode_delta_vb
  by_cases h : l.isEmpty
  · simp only [if_pos h]
    cases l with
    | nil => rfl
    | cons a t => simp at h
  · simp only [if_neg h]
    rw [decode_vb_encode_deltas]
    exact prefix_sums_deltasOf _ 0
      (List.sorted_insertionSort _ l) (fun x _ => Nat.zero_le x)

/-- C1: for every sorted list of 32-bit document ids, decoding the
delta + variable-byte encoding reproduces the original list. -/
theorem delta_vb_roundtrip (l : List Nat) (_h32 : ∀ x ∈ l, x < 2 ^ 32)
    (hs : l.Sorted (· ≤ ·)) : decode_delta_vb (encode_delta_vb l) = l := by
  rw [decode_encode_delta_vb, List.Sorted.insertionSort_eq hs]

theorem delta_vb_roundtrip_witness :
    (∀ x ∈ [3, 8, 9, 260], x < 2 ^ 32) ∧ ([3, 8, 9, 260] : List Nat).Sorted (· ≤ ·) ∧
      decode_delta_vb (encode_delta_vb [3, 8, 9, 260]) = [3, 8, 9, 260] :=
  ⟨by decide, by decide, delta_vb_roundtrip _ (by decide) (by decide)⟩

/-! ## Encoded posting-list size (claim C9) -/

/-- The byte count the spec formula assigns to one gap: `⌈log₂(gap+1)/7⌉`,
with real-valued logarithm and ceilings rendered as `⌈⌈log₂(gap+1)⌉/7⌉`
(the two readings agree because dividing a real ceiling by a positive
integer and re-ceiling is the nested-ceiling identity). -/
def specVbSize (gap : Nat) : Nat := (Nat.clog 2 (gap + 1) + 6) / 7

lemma encode_vb_length (n : Nat) : (encode_vb n).length = Nat.log 128 n + 1 := by
  induction n using Nat.strong_induction_on with
  | _ n ih =>
    rw [encode_vb]
    by_cases h : n < 128
    · rw [if_pos h]
      have : Nat.log 128 n = 0 := Nat.log_eq_zero_iff.mpr (Or.inl h)
      simp [this]
    · rw [if_neg h]
      have hd := ih (n / 128) (Nat.div_lt_self (by omega) (by norm_num))
      have hlog : Nat.log 128 (n / 128) = Nat.log 128 n - 1 := Nat.log_div_base 128 n
      have hpos : 0 < Nat.log 128 n := Nat.log_pos (by norm_num) (by omega)
      simp only [List.length_cons, hd]
      omega

lemma clog_two_succ (n : Nat) (hn : 1 ≤ n) : Nat.clog 2 (n + 1) = Nat.log 2 n + 1 := by
  have h1 : Nat.clog 2 (n + 1) ≤ Nat.log 2 n + 1 := by
    rw [← Nat.le_pow_iff_clog_le (by norm_num)]
    exact Nat.lt_pow_succ_log_self (by norm_num) n
  have h2 : Nat.log 2 n + 1 ≤ Nat.clog 2 (n + 1) := by
    have := Nat.pow_log_le_self 2 (by omega : n ≠ 0)
    have hlt : 2 ^ Nat.log 2 n < n + 1 := by omega
    exact (Nat.pow_lt_iff_lt_clog (by norm_num)).mp hlt
  omega

lemma log_base128_eq (n : Nat) (hn : 1 ≤ n) :
    Nat.log 128 n = Nat.log 2 n / 7 := by
  have hb : (128 : Nat) = 2 ^ 7 := by norm_num
  refine Nat.log_eq_of_pow_le_of_lt_pow ?_ ?_
  · calc 128 ^ (Nat.log 2 n / 7) = 2 ^ (7 * (Nat.log 2 n / 7)) := by
          rw [hb, ← pow_mul]
    _ ≤ 2 ^ Nat.log 2 n :=
          Nat.pow_le_pow_right (by norm_num) (Nat.mul_div_le _ 7 |>.trans_eq (by ring_nf))
    _ ≤ n := Nat.pow_log_le_self 2 (by omega)
  · calc n < 2 ^ (Nat.log 2 n + 1) := Nat.lt_pow_succ_log_self (by norm_num) n
    _ ≤ 2 ^ (7 * (Nat.log 2 n / 7 + 1)) := by
          refine Nat.pow_le_pow_right (by norm_num) ?_
          have h7 := Nat.div_add_mod (Nat.log 2 n) 7
          have hm7 : Nat.log 2 n % 7 < 7 := Nat.mod_lt _ (by norm_num)
          omega
    _ = 128 ^ (Nat.log 2 n / 7 + 1) := by rw [hb, ← pow_mul]

lemma max_one_specVbSize (n : Nat) : max 1 (specVbSize n) = Nat.log 128 n + 1 := by
  by_cases hn : n = 0
  · subst hn
    simp [specVbSize, Nat.clog_one_right]
  · have h1 : 1 ≤ n := by omega
    unfold specVbSize
    rw [clog_two_succ n h1, log_base128_eq n h1]
    have : (Nat.log 2 n + 1 + 6) / 7 = Nat.log 2 n / 7 + 1 := by
      rw [show Nat.log 2 n + 1 + 6 = Nat.log 2 n + 7 by ring, Nat.add_div_right _ (by norm_num)]
    rw [this]
    omega

lemma encode_deltas_length (l : List Nat) :
    ∀ prev, (encode_deltas l prev).length =
      ((deltasOf l prev).map (fun g => Nat.log 128 g + 1)).sum := by
  induction l with
  | nil => intro prev; rfl
  | cons n rest ih =>
    intro prev
    simp only [encode_deltas, deltasOf, List.length_append, List.map_cons, List.sum_cons,
      encode_vb_length, ih n]

lemma deltasOf_length (l : List Nat) : ∀ prev, (deltasOf l prev).length = l.length := by
  induction l with
  | nil => intro _; rfl
  | cons n rest ih => intro prev; simp [deltasOf, ih n]

lemma deltasOf_lt (l : List Nat) (B : Nat) (h : ∀ x ∈ l, x < B) :
    ∀ prev, ∀ g ∈ deltasOf l prev, g < B := by
  induction l with
  | nil => intro _ g hg; simp [deltasOf] at hg
  | cons n rest ih =>
    intro prev g hg
    simp only [deltasOf, List.mem_cons] at hg
    rcases hg with rfl | hg
    · have := h n (List.mem_cons_self _ _)
      omega
    · exact ih (fun x hx => h x (List.mem_cons_of_mem _ hx)) n g hg

lemma encode_delta_vb_length (l : List Nat) (h : l ≠ []) :
    (encode_delta_vb l).length =
      ((deltasOf (List.insertionSort (· ≤ ·) l) 0).map
        (fun g => Nat.log 128 g + 1)).sum := by
  rw [encode_delta_vb, if_neg (by simpa [List.isEmpty_iff] using h), encode_deltas_length]

lemma insertionSort_single (n : Nat) : List.insertionSort (· ≤ ·) [n] = [n] := rfl

lemma encode_delta_vb_single (n : Nat) :
    (encode_delta_vb [n]).length = Nat.log 128 n + 1 := by
  rw [encode_delta_vb_length _ (by simp), insertionSort_single]
  simp [deltasOf]

lemma specVbSize_sum_single (n : Nat) :
    ((deltasOf (List.insertionSort (· ≤ ·) [n]) 0).map specVbSize).sum = specVbSize n := by
  rw [insertionSort_single]
  simp [deltasOf]

/-- C9 counterexample: the posting list `[0]` encodes to 1 byte while the
spec formula `Σ⌈log₂(gap+1)/7⌉` yields 0; and the single-element posting
list `[2^31]` encodes to 5 bytes, exceeding the claimed `4·L = 4` bound. -/
theorem delta_vb_size_claim_false :
    (encode_delta_vb [0]).length ≠
        ((deltasOf (List.insertionSort (· ≤ ·) [0]) 0).map specVbSize).sum ∧
      ¬ ((encode_delta_vb [2 ^ 31]).length ≤ 4 * ([2 ^ 31] : List Nat).length) := by
  constructor
  · rw [encode_delta_vb_single, specVbSize_sum_single]
    have hspec : specVbSize 0 = 0 := by simp [specVbSize, Nat.clog_one_right]
    rw [hspec, Nat.log_zero_right]
    omega
  · rw [encode_delta_vb_single]
    have hlog : Nat.log 128 (2 ^ 31) = 4 := by
      refine Nat.log_eq_of_pow_le_of_lt_pow ?_ ?_ <;> norm_num
    rw [hlog, List.length_singleton]
    omega

/-- C9 amended: for 32-bit ids the encoded size is
`Σ max(1, ⌈log₂(gap_i+1)/7⌉)` bytes (the `max 1` accounts for zero gaps,
which still cost one byte), and it is at most `5·L`(a 32-bit delta can need
five 7-bit groups, so the claimed `4·L` is not a bound). -/
theorem delta_vb_size (l : List Nat) (h32 : ∀ x ∈ l, x < 2 ^ 32) :
    (encode_delta_vb l).length =
        ((deltasOf (List.insertionSort (· ≤ ·) l) 0).map
          (fun g => max 1 (specVbSize g))).sum ∧
      (encode_delta_vb l).length ≤ 5 * l.length := by
  rw [encode_delta_vb]
  by_cases h : l.isEmpty
  · have : l = [] := List.isEmpty_iff.mp h
    subst this
    simp [deltasOf]
  · rw [if_neg h]
    have hperm := List.perm_insertionSort (· ≤ ·) l
    have h32s : ∀ x ∈ List.insertionSort (· ≤ ·) l, x < 2 ^ 32 := fun x hx =>
      h32 x (hperm.mem_iff.mp hx)
    have hlen := encode_deltas_length (List.insertionSort (· ≤ ·) l) 0
    constructor
    · rw [hlen]
      refine congrArg _ (List.map_congr_left ?_)
      intro g _
      exact (max_one_specVbSize g).symm
    · rw [hlen]
      have hbound : ∀ y ∈ (deltasOf (List.insertionSort (· ≤ ·) l) 0).map
          (fun g => Nat.log 128 g + 1), y ≤ 5 := by
        intro y hy
        obtain ⟨g, hg, rfl⟩ := List.mem_map.mp hy
        have hglt : g < 2 ^ 32 := deltasOf_lt _ _ h32s 0 g hg
        by_cases hg0 : g = 0
        · simp [hg0]
        · have : Nat.log 128 g < 5 := by
            refine Nat.log_lt_of_lt_pow hg0 ?_
            calc g < 2 ^ 32 := hglt
            _ ≤ 128 ^ 5 := by norm_num
          omega
      calc ((deltasOf (List.insertionSort (· ≤ ·) l) 0).map
            (fun g => Nat.log 128 g + 1)).sum
          ≤ ((deltasOf (List.insertionSort (· ≤ ·) l) 0).map
            (fun g => Nat.log 128 g + 1)).length * 5 :=
            List.sum_le_card_nsmul _ 5 hbound
        _ = 5 * l.length := by
            rw [List.length_map, deltasOf_length, hperm.length_eq]
            ring

theorem delta_vb_size_witness :
    (∀ x ∈ [3, 8, 9, 260], x < 2 ^ 32) ∧
      ((encode_delta_vb [3, 8, 9, 260]).length =
          ((deltasOf (List.insertionSort (· ≤ ·) [3, 8, 9, 260]) 0).map
            (fun g => max 1 (specVbSize g))).sum ∧
        (encode_delta_vb [3, 8, 9, 260]).length ≤ 5 * ([3, 8, 9, 260] : List Nat).length) :=
  ⟨by decide, delta_vb_size _ (by decide)⟩

/-! ## Dictionary statistics (src/task1/src/dictionary.rs, claim C6) -/

/-- `TermEntry` from dictionary.rs. -/
structure TermEntry where
  frequency : Nat
  documents : Finset Str
  start_pos : Nat
  tlength : Nat
deriving DecidableEq

/-- `Dictionary` from dictionary.rs; the two hash maps are association
lists (`terms` keyed by start position, `term_lookup` keyed by term). -/
structure Dictionary where
  terms : List (Nat × TermEntry)
  term_lookup : List (Str × Nat)
  terms_string : Str
  total_words : Nat
  total_documents : Nat
  collection_size_bytes : Nat
deriving DecidableEq

/-- First-match association-list lookup (models `HashMap::get`). -/
def assocFind {κ ν : Type} [DecidableEq κ] (k : κ) : List (κ × ν) → Option ν
  | [] => none
  | (k', v) :: rest => if k' = k then some v else assocFind k rest

/-- `Dictionary::new`. -/
def Dictionary.new : Dictionary := ⟨[], [], [], 0, 0, 0⟩

/-- `Dictionary::find_or_add_term`: return the interned start position of
`term`, appending it to `terms_string` and `term_lookup` if absent. -/
def Dictionary.find_or_add_term (d : Dictionary) (term : Str) : Nat × Dictionary :=
  match assocFind term d.term_lookup with
  | some pos => (pos, d)
  | none =>
    let pos := d.terms_string.length
    (pos, { d with terms_string := d.terms_string ++ term,
                   term_lookup := (term, pos) :: d.term_lookup })

/-- The `terms.entry(start_pos).or_insert(..); frequency += 1;
documents.insert(document)` step of `add_term`. -/
def bumpEntry (k : Nat) (doc : Str) (tlen : Nat) :
    List (Nat × TermEntry) → List (Nat × TermEntry)
  | [] => [(k, ⟨1, {doc}, k, tlen⟩)]
  | (k', e) :: rest =>
    if k' = k then
      (k', ⟨e.frequency + 1, insert doc e.documents, e.start_pos, e.tlength⟩) :: rest
    else (k', e) :: bumpEntry k doc tlen rest

/-- `Dictionary::add_term`. -/
def Dictionary.add_term (d : Dictionary) (term doc : Str) : Dictionary :=
  let (pos, d') := d.find_or_add_term term
  { d' with terms := bumpEntry pos doc term.length d'.terms,
            total_words := d'.total_words + 1 }

/-- `Dictionary::add_file_stats`. -/
def Dictionary.add_file_stats (d : Dictionary) (file_size : Nat) : Dictionary :=
  { d with collection_size_bytes := d.collection_size_bytes + file_size,
           total_documents := d.total_documents + 1 }

/-- The two mutating operations a client may interleave on a dictionary. -/
inductive DictOp where
  | addTerm (term doc : Str)
  | addFileStats (file_size : Nat)
deriving DecidableEq

def applyDictOp (d : Dictionary) : DictOp → Dictionary
  | .addTerm term doc => d.add_term term doc
  | .addFileStats sz => d.add_file_stats sz

/-- The dictionary state reached from `Dictionary::new` by a sequence of
`add_term` / `add_file_stats` calls. -/
def runDictOps (ops : List DictOp) : Dictionary :=
  ops.foldl applyDictOp Dictionary.new

/-- `Σ frequency` over all `TermEntry` values. -/
def sumFreq (d : Dictionary) : Nat := (d.terms.map (fun p => p.2.frequency)).sum

/-- The set of documents appearing in any `TermEntry`. -/
def allEntryDocs (d : Dictionary) : Finset Str :=
  d.terms.foldr (fun p acc => p.2.documents ∪ acc) ∅

def countAddTerm : List DictOp → Nat
  | [] => 0
  | .addTerm _ _ :: r => countAddTerm r + 1
  | .addFileStats _ :: r => countAddTerm r

def countFileStats : List DictOp → Nat
  | [] => 0
  | .addTerm _ _ :: r => countFileStats r
  | .addFileStats _ :: r => countFileStats r + 1

lemma bumpEntry_sumFreq (k : Nat) (doc : Str) (tlen : Nat) :
    ∀ l : List (Nat × TermEntry),
      ((bumpEntry k doc tlen l).map (fun p => p.2.frequency)).sum =
        (l.map (fun p => p.2.frequency)).sum + 1 := by
  intro l
  induction l with
  | nil => rfl
  | cons p rest ih =>
    obtain ⟨k', e⟩ := p
    by_cases h : k' = k
    · simp [bumpEntry, h]
      ring
    · simp [bumpEntry, h, ih]
      ring

lemma add_term_sumFreq (d : Dictionary) (term doc : Str) :
    sumFreq (d.add_term term doc) = sumFreq d + 1 := by
  unfold Dictionary.add_term sumFreq
  cases hf : d.find_or_add_term term with
  | mk pos d' =>
    have hterms : d'.terms = d.terms := by
      unfold Dictionary.find_or_add_term at hf
      cases hl : assocFind term d.term_lookup <;> rw [hl] at hf <;>
        simp at hf <;> rw [← hf.2]
    simp only [hterms, bumpEntry_sumFreq]

lemma add_term_total_documents (d : Dictionary) (term doc : Str) :
    (d.add_term term doc).total_documents = d.total_documents := by
  unfold Dictionary.add_term
  cases hf : d.find_or_add_term term with
  | mk pos d' =>
    have : d'.total_documents = d.total_documents := by
      unfold Dictionary.find_or_add_term at hf
      cases hl : assocFind term d.term_lookup <;> rw [hl] at hf <;>
        simp at hf <;> rw [← hf.2]
    simpa using this

lemma add_term_total_words (d : Dictionary) (term doc : Str) :
    (d.add_term term doc).total_words = d.total_words + 1 := by
  unfold Dictionary.add_term
  cases hf : d.find_or_add_term term with
  | mk pos d' =>
    have : d'.total_words = d.total_words := by
      unfold Dictionary.find_or_add_term at hf
      cases hl : assocFind term d.term_lookup <;> rw [hl] at hf <;>
        simp at hf <;> rw [← hf.2]
    simpa using this

lemma runDictOps_invariants (ops : List DictOp) :
    ∀ d : Dictionary,
      (ops.foldl applyDictOp d).total_words = d.total_words + countAddTerm ops ∧
      sumFreq (ops.foldl applyDictOp d) = sumFreq d + countAddTerm ops ∧
      (ops.foldl applyDictOp d).total_documents =
        d.total_documents + countFileStats ops := by
  induction ops with
  | nil => intro d; simp [countAddTerm, countFileStats]
  | cons op rest ih =>
    intro d
    cases op with
    | addTerm term doc =>
      have h := ih (d.add_term term doc)
      simp only [List.foldl_cons, applyDictOp, countAddTerm, countFileStats] at h ⊢
      rw [h.1, h.2.1, h.2.2, add_term_total_words, add_term_sumFreq,
        add_term_total_documents]
      omega
    | addFileStats sz =>
      have h := ih (d.add_file_stats sz)
      have hfs : (d.add_file_stats sz).total_words = d.total_words ∧
          sumFreq (d.add_file_stats sz) = sumFreq d ∧
          (d.add_file_stats sz).total_documents = d.total_documents + 1 := by
        unfold Dictionary.add_file_stats sumFreq
        simp
      simp only [List.foldl_cons, applyDictOp, countAddTerm, countFileStats] at h ⊢
      rw [h.1, h.2.1, h.2.2, hfs.1, hfs.2.1, hfs.2.2]
      omega

/-- C6 counterexample: after the single operation
`add_term "abc" "doc1"` (and no `add_file_stats`), one distinct document
appears in a `TermEntry` but `total_documents` is still `0`. -/
theorem dictionary_totals_claim_false :
    ¬ ((runDictOps [DictOp.addTerm "abc".toList "doc1".toList]).total_words =
          sumFreq (runDictOps [DictOp.addTerm "abc".toList "doc1".toList]) ∧
        (runDictOps [DictOp.addTerm "abc".toList "doc1".toList]).total_documents =
          (allEntryDocs (runDictOps [DictOp.addTerm "abc".toList "doc1".toList])).card) := by
  decide

/-- C6 amended: in every reachable dictionary state `total_words` equals
`Σ frequency`, while `total_documents` equals the number of
`add_file_stats` calls performed — it is not derived from the documents
recorded in `TermEntry` values. -/
theorem dictionary_totals (ops : List DictOp) :
    (runDictOps ops).total_words = sumFreq (runDictOps ops) ∧
      (runDictOps ops).total_documents = countFileStats ops := by
  have h := runDictOps_invariants ops Dictionary.new
  unfold runDictOps
  have hnew : Dictionary.new.total_words = 0 ∧ sumFreq Dictionary.new = 0 ∧
      Dictionary.new.total_documents = 0 := by decide
  rw [h.1, h.2.1, h.2.2]
  have h1 := hnew.1
  have h2 := hnew.2.1
  have h3 := hnew.2.2
  omega

/-! ## Front-packing block formation (dictionary.rs, mod front_packing; claim C7) -/

/-- Loop body of `find_common_prefix` (dictionary.rs): walk character index
`i` while every term has the same character there, tracking the confirmed
common length `plen`; `chars().nth(i)?` on the first term yields the `none`
early return. Character and byte indices coincide for the one-byte
characters used here. -/
def fcp_go (terms : List Str) (first : Str) : List Nat → Nat → Option Nat
  | [], plen => some plen
  | i :: rest, plen =>
    match first.get? i with
    | none => none
    | some c =>
      if terms.all (fun t => t.get? i = some c) then fcp_go terms first rest (i + 1)
      else some plen

/-- `find_common_prefix` from dictionary.rs (name shortened). -/
def find_common_pre (terms : List Str) : Option Nat :=
  if terms.length < 2 then some 0
  else
    match terms with
    | [] => some 0
    | first :: _ => fcp_go terms first (List.range first.length) 0

/-- One candidate-block-end evaluation inside `find_optimal_block`: the
accumulator is `(best_end, best_prefix_len, best_savings)`. -/
def fob_step (terms : List Str) (start : Nat) (best : Nat × Nat × Int) (e : Nat) :
    Nat × Nat × Int :=
  match find_common_pre ((terms.drop start).take (e - start)) with
  | none => best
  | some plen =>
    if plen = 0 then best
    else
      let slice := (terms.drop start).take (e - start)
      let block_size := e - start
      let original : Int := ((slice.map (fun s => s.length + 1)).sum : Nat)
      let compressed : Int :=
        ((3 + plen + block_size + (slice.map (fun s => s.length - plen)).sum : Nat))
      let savings := original - compressed
      if savings > best.2.2 then (e, plen, savings) else best

/-- `find_optimal_block` from dictionary.rs: candidate block ends run over
`(start, min(start+255, terms.len())]`. -/
def find_optimal_block (terms : List Str) (start : Nat) : Nat × Nat :=
  if terms.length ≤ start then (start, 0)
  else
    let last := min (start + 255) terms.length
    let cands := List.range' (start + 1) (last - start)
    let best := cands.foldl (fob_step terms start) (start + 1, 0, 0)
    if best.2.2 ≤ 0 then (start + 1, 0) else (best.1, best.2.1)

/-- The sequence of `(block_start, block_end)` pairs produced by the
`while i < terms.len()` loop of `compress_terms`. The fuel argument
(`terms.length` at top level) only bounds the iteration count; it is never
exhausted because each block end strictly exceeds its start. -/
def compress_blocks_go (terms : List Str) : Nat → Nat → List (Nat × Nat)
  | 0, _ => []
  | fuel + 1, i =>
    if i < terms.length then
      (i, (find_optimal_block terms i).1) ::
        compress_blocks_go terms fuel (find_optimal_block terms i).1
    else []

/-- Block extents emitted by `compress_terms` (dictionary.rs). -/
def compress_blocks (terms : List Str) : List (Nat × Nat) :=
  compress_blocks_go terms terms.length 0

lemma fob_step_cases (terms : List Str) (start : Nat) (best : Nat × Nat × Int)
    (e : Nat) : fob_step terms start best e = best ∨ (fob_step terms start best e).1 = e := by
  unfold fob_step
  cases find_common_pre ((terms.drop start).take (e - start)) with
  | none => exact Or.inl rfl
  | some plen =>
    dsimp only
    split
    · exact Or.inl rfl
    · split
      · exact Or.inr rfl
      · exact Or.inl rfl

lemma fob_fold_bounds (terms : List Str) (start M : Nat) :
    ∀ (cands : List Nat) (best : Nat × Nat × Int),
      (∀ e ∈ cands, start < e ∧ e ≤ M) → start < best.1 → best.1 ≤ M →
        start < (cands.foldl (fob_step terms start) best).1 ∧
          (cands.foldl (fob_step terms start) best).1 ≤ M := by
  intro cands
  induction cands with
  | nil => intro best _ h1 h2; exact ⟨h1, h2⟩
  | cons e rest ih =>
    intro best hc h1 h2
    simp only [List.foldl_cons]
    have he := hc e (List.mem_cons_self _ _)
    have hrest : ∀ x ∈ rest, start < x ∧ x ≤ M := fun x hx =>
      hc x (List.mem_cons_of_mem _ hx)
    rcases fob_step_cases terms start best e with hcase | hcase
    · rw [hcase]
      exact ih best hrest h1 h2
    · refine ih _ hrest ?_ ?_
      · rw [hcase]; exact he.1
      · rw [hcase]; exact he.2

lemma find_optimal_block_bounds (terms : List Str) (start : Nat)
    (h : start < terms.length) :
    start < (find_optimal_block terms start).1 ∧
      (find_optimal_block terms start).1 ≤ min (start + 255) terms.length := by
  unfold find_optimal_block
  rw [if_neg (by omega)]
  have hM : start + 1 ≤ min (start + 255) terms.length := by omega
  have hc : ∀ e ∈ List.range' (start + 1) (min (start + 255) terms.length - start),
      start < e ∧ e ≤ min (start + 255) terms.length := by
    intro e he
    rw [List.mem_range'] at he
    obtain ⟨i, hi, rfl⟩ := he
    omega
  have hfold := fob_fold_bounds terms start (min (start + 255) terms.length)
    (List.range' (start + 1) (min (start + 255) terms.length - start))
    (start + 1, 0, 0) hc (by omega) hM
  dsimp only
  split
  · exact ⟨by omega, hM⟩
  · exact hfold

lemma compress_blocks_go_bounds (terms : List Str) :
    ∀ (fuel i : Nat), ∀ p ∈ compress_blocks_go terms fuel i,
      p.1 < p.2 ∧ p.2 - p.1 ≤ 255 := by
  intro fuel
  induction fuel with
  | zero => intro i p hp; simp [compress_blocks_go] at hp
  | succ fuel ih =>
    intro i p hp
    unfold compress_blocks_go at hp
    by_cases hi : i < terms.length
    · rw [if_pos hi] at hp
      rcases List.mem_cons.mp hp with rfl | hp
      · have := find_optimal_block_bounds terms i hi
        constructor
        · exact this.1
        · have := this.2
          simp only [Nat.le_min] at this
          omega
      · exact ih _ p hp
    · rw [if_neg hi] at hp
      simp at hp

/-- Terms `aa00 … aa19`: twenty strings sharing the two-character common
pre-part `aa`, on which the greedy block formation picks a 20-term block. -/
def terms20 : List Str :=
  List.map String.toList
    ["aa00", "aa01", "aa02", "aa03", "aa04", "aa05", "aa06", "aa07", "aa08", "aa09",
     "aa10", "aa11", "aa12", "aa13", "aa14", "aa15", "aa16", "aa17", "aa18", "aa19"]

set_option maxRecDepth 40000 in
/-- C7 counterexample: on `terms20` the greedy block formation emits the
single block `[0, 20)` of 20 > 16 terms, so candidate ends beyond
`min(i+16, n)` are considered (the code's window is `min(i+255, n)`). -/
theorem find_optimal_block_claim_false :
    ¬ (∀ p ∈ compress_blocks terms20, p.2 - p.1 ≤ 16) := by
  intro h
  have hmem : (0, 20) ∈ compress_blocks terms20 := by decide
  have := h (0, 20) hmem
  omega

/-- C7 amended: candidate block ends `j` satisfy
`i < j ≤ min(i+255, n)` (the code's window is 255, not 16), hence every
emitted front-packed block has between 1 and 255 terms. -/
theorem find_optimal_block_window (terms : List Str) :
    (∀ start, start < terms.length →
        start < (find_optimal_block terms start).1 ∧
          (find_optimal_block terms start).1 ≤ min (start + 255) terms.length) ∧
      ∀ p ∈ compress_blocks terms, p.1 < p.2 ∧ p.2 - p.1 ≤ 255 :=
  ⟨fun start h => find_optimal_block_bounds terms start h,
   fun p hp => compress_blocks_go_bounds terms _ _ p hp⟩

theorem find_optimal_block_window_witness :
    0 < terms20.length ∧
      (0 < (find_optimal_block terms20 0).1 ∧
        (find_optimal_block terms20 0).1 ≤ min (0 + 255) terms20.length) :=
  ⟨by decide, (find_optimal_block_window terms20).1 0 (by decide)⟩

/-! ## Coordinate (positional) index (src/task1/src/coordinate_index.rs) -/

/-- Rust `str::to_lowercase` restricted to the alphabet the tokenizer
admits (ASCII letters, Cyrillic а-я/ё): uppercase ASCII and Cyrillic are
shifted to their lowercase forms, everything else is unchanged. -/
def rustCharToLower (c : Char) : Char :=
  if 'A' ≤ c ∧ c ≤ 'Z' then Char.ofNat (c.toNat + 32)
  else if 'А' ≤ c ∧ c ≤ 'Я' then Char.ofNat (c.toNat + 32)
  else if c = 'Ё' then 'ё'
  else c

/-- `to_lowercase` over a whole string. -/
def to_lowercase (s : Str) : Str := s.map rustCharToLower

/-- `str::split_whitespace`: maximal runs of non-whitespace characters. -/
def split_whitespace_go : List Char → List Char → List Str
  | [], cur => if cur.isEmpty then [] else [cur.reverse]
  | c :: cs, cur =>
    if c.isWhitespace then
      if cur.isEmpty then split_whitespace_go cs []
      else cur.reverse :: split_whitespace_go cs []
    else split_whitespace_go cs (c :: cur)

def split_whitespace (s : Str) : List Str := split_whitespace_go s []

/-- `Vec<&str>::join(" ")`. -/
def joinSpace : List Str → Str
  | [] => []
  | [w] => w
  | w :: rest => w ++ ' ' :: joinSpace rest

/-- `PostingEntry` from coordinate_index.rs. -/
structure PostingEntry where
  document : Str
  positions : List Nat
deriving DecidableEq

/-- `CoordinateIndex` from coordinate_index.rs (`index` is the
term → posting-list hash map as an association list). -/
structure CoordinateIndex where
  index : List (Str × List PostingEntry)
  documents : List Str
deriving DecidableEq

/-- The distinct error values produced by the query evaluators, one
constructor per distinct Rust error message. -/
inductive QErr where
  | unexpectedEnd
  | missingParen
  | missingQuote
  | missingParenNear
  | expectedParenNear
  | invalidDistance (s : Str)
  | nearTooFew
  | proximityTooFew
  | termNotFound (t : Str)
deriving DecidableEq

instance {ε α : Type} [DecidableEq ε] [DecidableEq α] : DecidableEq (Except ε α) :=
  fun x y =>
    match x, y with
    | .ok a, .ok b =>
      if h : a = b then .isTrue (by rw [h])
      else .isFalse (by intro hh; cases hh; exact h rfl)
    | .error e, .error f =>
      if h : e = f then .isTrue (by rw [h])
      else .isFalse (by intro hh; cases hh; exact h rfl)
    | .ok _, .error _ => .isFalse (by intro hh; cases hh)
    | .error _, .ok _ => .isFalse (by intro hh; cases hh)

/-- `CoordinateIndex::search_term`. -/
def CoordinateIndex.search_term (idx : CoordinateIndex) (term : Str) :
    Except QErr (Finset Str) :=
  match assocFind term idx.index with
  | some postings => .ok (postings.map (fun p => p.document)).toFinset
  | none => .error (.termNotFound term)

/-- The inner word loop of `search_phrase`: `pairs` carries
`(word_offset, word)` from `words.iter().enumerate().skip(1)`, `current`
is `current_positions`; returns the final `current_positions` or `none` if
some word failed. -/
def phrase_scan (idx : CoordinateIndex) (document : Str) :
    List (Nat × Str) → List Nat → Option (List Nat)
  | [], current => some current
  | (word_offset, word) :: rest, current =>
    match assocFind (to_lowercase word) idx.index with
    | none => none
    | some word_postings =>
      match word_postings.find? (fun p => p.document = document) with
      | none => none
      | some word_posting =>
        let next := (current.filter
          (fun pos => (pos + word_offset) ∈ word_posting.positions)).map
          (fun pos => pos + word_offset)
        if next.isEmpty then none else phrase_scan idx document rest next

/-- `CoordinateIndex::search_phrase`. -/
def CoordinateIndex.search_phrase (idx : CoordinateIndex) (phrase : Str) :
    Except QErr (Finset Str) :=
  match split_whitespace phrase with
  | [] => .ok ∅
  | [w] => idx.search_term w
  | w1 :: rest =>
    match assocFind (to_lowercase w1) idx.index with
    | none => .ok ∅
    | some first_postings =>
      let pairs := (List.range' 1 rest.length).zip rest
      .ok ((first_postings.filter (fun posting =>
          match phrase_scan idx posting.document pairs posting.positions with
          | some current => !current.isEmpty
          | none => false)).map (fun p => p.document)).toFinset

/-- `CoordinateIndex::search_proximity`. -/
def CoordinateIndex.search_proximity (idx : CoordinateIndex) (words : List Str)
    (max_distance : Nat) : Except QErr (Finset Str) :=
  if words.length < 2 then .error .proximityTooFew
  else
    match words with
    | [] => .error .proximityTooFew
    | w1 :: rest =>
      match assocFind (to_lowercase w1) idx.index with
      | none => .ok ∅
      | some first_postings =>
        .ok ((first_postings.filter (fun posting =>
            posting.positions.any (fun first_pos =>
              rest.all (fun word =>
                match assocFind (to_lowercase word) idx.index with
                | none => false
                | some word_postings =>
                  match word_postings.find? (fun p => p.document = posting.document) with
                  | none => false
                  | some word_posting =>
                    word_posting.positions.any (fun pos =>
                      (if pos > first_pos then pos - first_pos
                       else first_pos - pos) ≤ max_distance))))).map
          (fun p => p.document)).toFinset

/-- The phrase predicate as the spec states it ("for every j in [2,k],
position p+(j−1) appears in the position list of tj"): here `rest`
lists t₂ … tₖ, and `pr.1` ranges over the offsets 1 … k−1. -/
def specPhraseDocMatch (idx : CoordinateIndex) (w1 : Str) (rest : List Str)
    (d : Str) : Prop :=
  ∃ postings, assocFind (to_lowercase w1) idx.index = some postings ∧
    ∃ entry ∈ postings, entry.document = d ∧
      ∃ p ∈ entry.positions, ∀ pr ∈ (List.range' 1 rest.length).zip rest,
        ∃ postings2 entry2,
          assocFind (to_lowercase pr.2) idx.index = some postings2 ∧
            entry2 ∈ postings2 ∧ entry2.document = d ∧ (p + pr.1) ∈ entry2.positions

/-- A three-token document `aaa bbb ccc` indexed positionally. -/
def phraseIdx : CoordinateIndex :=
  ⟨[("aaa".toList, [⟨"d1".toList, [0]⟩]),
    ("bbb".toList, [⟨"d1".toList, [1]⟩]),
    ("ccc".toList, [⟨"d1".toList, [2]⟩])],
   ["d1".toList]⟩

/-- C3: the document `d1 = "aaa bbb ccc"` contains the phrase
`aaa bbb ccc` (every tⱼ sits at position p+(j−1) as the spec demands), yet
`search_phrase` returns the empty set: the code offsets each word by its
index relative to the *previous* word's already-shifted positions, so it
looks for the j-th phrase word at triangular offsets p+1, p+3, p+6, …
instead of p+1, p+2, p+3, … -/
theorem search_phrase_triangular_bug :
    phraseIdx.search_phrase ("aaa bbb ccc".toList) = Except.ok ∅ ∧
      specPhraseDocMatch phraseIdx ("aaa".toList)
        ["bbb".toList, "ccc".toList] ("d1".toList) := by
  constructor
  · decide
  · refine ⟨[⟨"d1".toList, [0]⟩], by decide, ⟨"d1".toList, [0]⟩, by decide, rfl,
      0, by decide, ?_⟩
    intro pr hpr
    have hz : (List.range' 1 (["bbb".toList, "ccc".toList] : List Str).length).zip
        ["bbb".toList, "ccc".toList] = [(1, "bbb".toList), (2, "ccc".toList)] := rfl
    rw [hz] at hpr
    simp only [List.mem_cons, List.not_mem_nil, or_false] at hpr
    rcases hpr with rfl | rfl
    · exact ⟨[⟨"d1".toList, [1]⟩], ⟨"d1".toList, [1]⟩, by decide, by decide, rfl, by decide⟩
    · exact ⟨[⟨"d1".toList, [2]⟩], ⟨"d1".toList, [2]⟩, by decide, by decide, rfl, by decide⟩

/-! ## Proximity search semantics (claim C5) -/

lemma assocFind_mem {κ ν : Type} [DecidableEq κ] (k : κ) (v : ν) :
    ∀ l : List (κ × ν), assocFind k l = some v → (k, v) ∈ l := by
  intro l
  induction l with
  | nil => intro h; simp [assocFind] at h
  | cons p rest ih =>
    intro h
    obtain ⟨k', v'⟩ := p
    unfold assocFind at h
    by_cases hk : k' = k
    · rw [if_pos hk] at h
      cases h
      subst hk
      exact List.mem_cons_self _ _
    · rw [if_neg hk] at h
      exact List.mem_cons_of_mem _ (ih h)

lemma find?_doc_eq_of_nodup (d : Str) (e : PostingEntry) :
    ∀ postings : List PostingEntry,
      (postings.map (fun p => p.document)).Nodup → e ∈ postings → e.document = d →
        postings.find? (fun p => p.document = d) = some e := by
  intro postings
  induction postings with
  | nil => intro _ he _; cases he
  | cons a rest ih =>
    intro hnd he hed
    rw [List.map_cons, List.nodup_cons] at hnd
    by_cases ha : a.document = d
    · have hae : e = a := by
        rcases List.mem_cons.mp he with rfl | hmem
        · rfl
        · exact absurd (List.mem_map.mpr ⟨e, hmem, hed.trans ha.symm⟩) hnd.1
      subst hae
      rw [List.find?_cons_of_pos _ (by simpa using ha)]
    · have hmem : e ∈ rest := by
        rcases List.mem_cons.mp he with rfl | hmem
        · exact absurd hed ha
        · exact hmem
      rw [List.find?_cons_of_neg _ (by simpa using ha)]
      exact ih hnd.2 hmem hed

lemma proximity_inner_check (idx : CoordinateIndex) (docu : Str) (p maxd : Nat)
    (w : Str) :
    ((match assocFind (to_lowercase w) idx.index with
      | none => false
      | some word_postings =>
        match word_postings.find? (fun p0 => p0.document = docu) with
        | none => false
        | some word_posting =>
          word_posting.positions.any (fun pos =>
            (if pos > p then pos - p else p - pos) ≤ maxd)) = true) ↔
      ∃ wps wp, assocFind (to_lowercase w) idx.index = some wps ∧
        wps.find? (fun p0 => p0.document = docu) = some wp ∧
        ∃ q ∈ wp.positions, (if q > p then q - p else p - q) ≤ maxd := by
  cases haf2 : assocFind (to_lowercase w) idx.index with
  | none => simp
  | some wps =>
    cases hfind : wps.find? (fun p0 => p0.document = docu) with
    | none => simp [hfind]
    | some wp =>
      dsimp only
      rw [hfind]
      dsimp only
      simp only [List.any_eq_true, decide_eq_true_eq]
      constructor
      · rintro ⟨q, hq, hd⟩
        exact ⟨wps, wp, rfl, hfind, q, hq, hd⟩
      · rintro ⟨wps', wp', he1, he2, q, hq, hd⟩
        cases he1
        rw [hfind] at he2
        cases he2
        exact ⟨q, hq, hd⟩

/-- C5: `search_proximity` on `NEAR/d (t₁, …, tₖ)`, k ≥ 2, returns exactly
the documents in which some position `p` of `t₁` exists such that every
other word has some position `q` with `|q − p| ≤ d`; mutual proximity
among t₂ … tₖ is not required. (Well-formedness hypothesis: each posting
list has at most one entry per document, as built indices do.) -/
theorem search_proximity_spec (idx : CoordinateIndex) (w1 : Str) (rest : List Str)
    (maxd : Nat) (hrest : rest ≠ [])
    (hnodup : ∀ pr ∈ idx.index,
      ((pr.2 : List PostingEntry).map (fun p => p.document)).Nodup) :
    ∃ S, idx.search_proximity (w1 :: rest) maxd = Except.ok S ∧
      ∀ d, d ∈ S ↔
        ∃ postings, assocFind (to_lowercase w1) idx.index = some postings ∧
          ∃ entry ∈ postings, entry.document = d ∧
            ∃ p ∈ entry.positions, ∀ w ∈ rest,
              ∃ postings2 entry2,
                assocFind (to_lowercase w) idx.index = some postings2 ∧
                  entry2 ∈ postings2 ∧ entry2.document = d ∧
                  ∃ q ∈ entry2.positions,
                    (if q > p then q - p else p - q) ≤ maxd := by
  unfold CoordinateIndex.search_proximity
  have hlen : ¬ ((w1 :: rest).length < 2) := by
    have := List.length_pos.mpr hrest
    simp only [List.length_cons]
    omega
  rw [if_neg hlen]
  dsimp only
  cases haf : assocFind (to_lowercase w1) idx.index with
  | none =>
    refine ⟨∅, rfl, ?_⟩
    intro d
    simp
  | some fp =>
    refine ⟨_, rfl, ?_⟩
    intro d
    constructor
    · intro hd
      rw [List.mem_toFinset, List.mem_map] at hd
      obtain ⟨posting, hpost, rfl⟩ := hd
      rw [List.mem_filter] at hpost
      obtain ⟨hpfp, hQ⟩ := hpost
      simp only [List.any_eq_true] at hQ
      obtain ⟨p, hp, hall⟩ := hQ
      simp only [List.all_eq_true] at hall
      refine ⟨fp, rfl, posting, hpfp, rfl, p, hp, ?_⟩
      intro w hw
      have hfw := (proximity_inner_check idx posting.document p maxd w).mp (hall w hw)
      obtain ⟨wps, wp, haf2, hfind, q, hq, hdist⟩ := hfw
      have hpa := List.find?_some hfind
      exact ⟨wps, wp, haf2, List.mem_of_find?_eq_some hfind,
        of_decide_eq_true hpa, q, hq, hdist⟩
    · intro hd
      obtain ⟨postings, hps, entry, hentry, hdoc, p, hp, hall⟩ := hd
      cases hps
      rw [List.mem_toFinset, List.mem_map]
      refine ⟨entry, ?_, hdoc⟩
      rw [List.mem_filter]
      refine ⟨hentry, ?_⟩
      simp only [List.any_eq_true]
      refine ⟨p, hp, ?_⟩
      simp only [List.all_eq_true]
      intro w hw
      obtain ⟨wps, e2, haf2, he2, he2doc, q, hq, hdist⟩ := hall w hw
      have hnd : (wps.map (fun p0 => p0.document)).Nodup :=
        hnodup _ (assocFind_mem _ _ _ haf2)
      have hfind : wps.find? (fun p0 => p0.document = entry.document) = some e2 :=
        find?_doc_eq_of_nodup entry.document e2 wps hnd he2 (he2doc.trans hdoc.symm)
      exact (proximity_inner_check idx entry.document p maxd w).mpr
        ⟨wps, e2, haf2, hfind, q, hq, hdist⟩

/-- A tiny positional index: `d1 = "aaa xxx bbb"`. -/
def proxIdx : CoordinateIndex :=
  ⟨[("aaa".toList, [⟨"d1".toList, [0]⟩]),
    ("xxx".toList, [⟨"d1".toList, [1]⟩]),
    ("bbb".toList, [⟨"d1".toList, [2]⟩])],
   ["d1".toList]⟩

theorem search_proximity_spec_witness :
    (["bbb".toList] : List Str) ≠ [] ∧
      (∀ pr ∈ proxIdx.index,
        ((pr.2 : List PostingEntry).map (fun p => p.document)).Nodup) ∧
      ∃ S, proxIdx.search_proximity ["aaa".toList, "bbb".toList] 2 = Except.ok S ∧
        ∀ d, d ∈ S ↔
          ∃ postings, assocFind (to_lowercase "aaa".toList) proxIdx.index = some postings ∧
            ∃ entry ∈ postings, entry.document = d ∧
              ∃ p ∈ entry.positions, ∀ w ∈ (["bbb".toList] : List Str),
                ∃ postings2 entry2,
                  assocFind (to_lowercase w) proxIdx.index = some postings2 ∧
                    entry2 ∈ postings2 ∧ entry2.document = d ∧
                    ∃ q ∈ entry2.positions,
                      (if q > p then q - p else p - q) ≤ 2 :=
  ⟨by decide, by decide,
   search_proximity_spec proxIdx "aaa".toList ["bbb".toList] 2 (by decide) (by decide)⟩

/-! ## Query tokenizer (src/task1/src/query.rs) and the coordinate-index
recursive-descent evaluator (coordinate_index.rs, claim C8) -/

/-- `str::trim`: strip whitespace from both ends. -/
def rustTrim (s : Str) : Str :=
  ((s.dropWhile Char.isWhitespace).reverse.dropWhile Char.isWhitespace).reverse

/-- The character loop of `tokenize` (query.rs): `cur` holds the current
token's characters in reverse. -/
def tokenize_go : List Char → List Char → List Str
  | [], cur => if cur.isEmpty then [] else [rustTrim cur.reverse]
  | c :: cs, cur =>
    if c = '(' ∨ c = ')' then
      (if cur.isEmpty then ([c] : Str) :: tokenize_go cs []
       else rustTrim cur.reverse :: ([c] : Str) :: tokenize_go cs [])
    else if c = ' ' then
      (if cur.isEmpty then tokenize_go cs []
       else rustTrim cur.reverse :: tokenize_go cs [])
    else tokenize_go cs (c :: cur)

/-- `tokenize` from query.rs (it never fails, so the `Ok` wrapper is
dropped). -/
def tokenize (q : Str) : List Str := tokenize_go q []

/-- `str::parse::<usize>`: optional leading `+`, then one or more ASCII
digits (overflow, impossible for the distances at hand, is not modelled). -/
def parseUsize (s : Str) : Option Nat :=
  let digits := match s with
    | '+' :: rest => rest
    | _ => s
  if digits.isEmpty then none
  else if digits.all Char.isDigit then
    some (digits.foldl (fun acc c => acc * 10 + (c.toNat - 48)) 0)
  else none

/-- The quote and closing-parenthesis delimiter tokens. -/
def quoteTok : Str := "\"".toList

def closeParenTok : Str := ")".toList

/-- The loop guard `tokens[pos] != close` used when gathering phrase or
proximity words. -/
def notTok (close : Str) (w : Str) : Bool := ¬ w = close

/- The recursive-descent evaluator of CoordinateIndex
(`parse_or_expr` / `parse_and_expr` / `parse_not_expr` / `parse_primary`
plus the two operator `while` loops). The `Nat` argument is fuel bounding
the recursion depth — an artifact of embedding the mutually recursive Rust
functions; every claim below is proved for the fuel the entry point
passes, which exceeds the maximal possible parse depth `4·(len+1)`. -/
mutual

def coordParseOr (idx : CoordinateIndex) :
    Nat → List Str → Except QErr (Finset Str × List Str)
  | 0, _ => .error .unexpectedEnd
  | fuel + 1, tokens =>
    match coordParseAnd idx fuel tokens with
    | .error e => .error e
    | .ok (r, rest) => coordParseOrLoop idx fuel r rest

def coordParseOrLoop (idx : CoordinateIndex) :
    Nat → Finset Str → List Str → Except QErr (Finset Str × List Str)
  | 0, _, _ => .error .unexpectedEnd
  | fuel + 1, acc, tokens =>
    match tokens with
    | t :: rest =>
      if t = "or".toList then
        match coordParseAnd idx fuel rest with
        | .error e => .error e
        | .ok (r, rest2) => coordParseOrLoop idx fuel (acc ∪ r) rest2
      else .ok (acc, tokens)
    | [] => .ok (acc, tokens)

def coordParseAnd (idx : CoordinateIndex) :
    Nat → List Str → Except QErr (Finset Str × List Str)
  | 0, _ => .error .unexpectedEnd
  | fuel + 1, tokens =>
    match coordParseNot idx fuel tokens with
    | .error e => .error e
    | .ok (r, rest) => coordParseAndLoop idx fuel r rest

def coordParseAndLoop (idx : CoordinateIndex) :
    Nat → Finset Str → List Str → Except QErr (Finset Str × List Str)
  | 0, _, _ => .error .unexpectedEnd
  | fuel + 1, acc, tokens =>
    match tokens with
    | t :: rest =>
      if t = "and".toList then
        match coordParseNot idx fuel rest with
        | .error e => .error e
        | .ok (r, rest2) => coordParseAndLoop idx fuel (acc ∩ r) rest2
      else .ok (acc, tokens)
    | [] => .ok (acc, tokens)

def coordParseNot (idx : CoordinateIndex) :
    Nat → List Str → Except QErr (Finset Str × List Str)
  | 0, _ => .error .unexpectedEnd
  | fuel + 1, tokens =>
    match tokens with
    | t :: rest =>
      if t = "not".toList then
        match coordParsePrimary idx fuel rest with
        | .error e => .error e
        | .ok (r, rest2) => .ok (idx.documents.toFinset \ r, rest2)
      else coordParsePrimary idx fuel tokens
    | [] => coordParsePrimary idx fuel tokens

def coordParsePrimary (idx : CoordinateIndex) :
    Nat → List Str → Except QErr (Finset Str × List Str)
  | 0, _ => .error .unexpectedEnd
  | fuel + 1, tokens =>
    match tokens with
    | [] => .error .unexpectedEnd
    | t :: rest =>
      if t = "(".toList then
        match coordParseOr idx fuel rest with
        | .error e => .error e
        | .ok (r, rest2) =>
          match rest2 with
          | t2 :: rest3 =>
            if t2 = ")".toList then .ok (r, rest3) else .error .missingParen
          | [] => .error .missingParen
      else if t = "\"".toList then
        match rest.dropWhile (notTok quoteTok) with
        | [] => .error .missingQuote
        | _ :: rest3 =>
          match idx.search_phrase
              (joinSpace (rest.takeWhile (notTok quoteTok))) with
          | .error e => .error e
          | .ok s => .ok (s, rest3)
      else if t.take 5 = "near/".toList then
        match parseUsize (t.drop 5) with
        | none => .error (.invalidDistance (t.drop 5))
        | some distance =>
          match rest with
          | t2 :: rest2 =>
            if t2 = "(".toList then
              match rest2.dropWhile (notTok closeParenTok) with
              | [] => .error .missingParenNear
              | _ :: rest3 =>
                if (rest2.takeWhile (notTok closeParenTok)).length < 2 then
                  .error .nearTooFew
                else
                  match idx.search_proximity
                      (rest2.takeWhile (notTok closeParenTok)) distance with
                  | .error e => .error e
                  | .ok s => .ok (s, rest3)
            else .error .expectedParenNear
          | [] => .error .expectedParenNear
      else
        match idx.search_term t with
        | .error e => .error e
        | .ok s => .ok (s, rest)

end

/-- `CoordinateIndex::search` after tokenization: run `parse_or_expr` from
position 0 and keep only the resulting set (trailing tokens are ignored,
exactly as in the source). -/
def CoordinateIndex.searchTokens (idx : CoordinateIndex) (tokens : List Str) :
    Except QErr (Finset Str) :=
  match coordParseOr idx (4 * tokens.length + 4) tokens with
  | .error e => .error e
  | .ok (r, _) => .ok r

/-- `CoordinateIndex::search`: lowercase, tokenize, parse. -/
def CoordinateIndex.search (idx : CoordinateIndex) (query : Str) :
    Except QErr (Finset Str) :=
  idx.searchTokens (tokenize (to_lowercase query))

lemma coordParse_suffix (idx : CoordinateIndex) : ∀ fuel : Nat,
    (∀ tokens r rest, coordParseOr idx fuel tokens = .ok (r, rest) → rest <:+ tokens) ∧
    (∀ acc tokens r rest,
      coordParseOrLoop idx fuel acc tokens = .ok (r, rest) → rest <:+ tokens) ∧
    (∀ tokens r rest, coordParseAnd idx fuel tokens = .ok (r, rest) → rest <:+ tokens) ∧
    (∀ acc tokens r rest,
      coordParseAndLoop idx fuel acc tokens = .ok (r, rest) → rest <:+ tokens) ∧
    (∀ tokens r rest, coordParseNot idx fuel tokens = .ok (r, rest) → rest <:+ tokens) ∧
    (∀ tokens r rest,
      coordParsePrimary idx fuel tokens = .ok (r, rest) → rest <:+ tokens) := by
  intro fuel
  induction fuel with
  | zero =>
    refine ⟨?_, ?_, ?_, ?_, ?_, ?_⟩ <;> intros <;>
      simp_all [coordParseOr, coordParseOrLoop, coordParseAnd, coordParseAndLoop,
        coordParseNot, coordParsePrimary]
  | succ fuel ih =>
    obtain ⟨ihOr, ihOrLoop, ihAnd, ihAndLoop, ihNot, ihPrimary⟩ := ih
    refine ⟨?_, ?_, ?_, ?_, ?_, ?_⟩
    · intro tokens r rest h
      simp only [coordParseOr] at h
      cases hand : coordParseAnd idx fuel tokens with
      | error e => simp [hand] at h
      | ok v =>
        obtain ⟨r1, rest1⟩ := v
        simp only [hand] at h
        exact (ihOrLoop _ _ _ _ h).trans (ihAnd _ _ _ hand)
    · intro acc tokens r rest h
      cases tokens with
      | nil =>
        simp only [coordParseOrLoop] at h
        cases h
        exact List.suffix_refl _
      | cons t rest1 =>
        simp only [coordParseOrLoop] at h
        by_cases ht : t = "or".toList
        · rw [if_pos ht] at h
          cases hand : coordParseAnd idx fuel rest1 with
          | error e => simp [hand] at h
          | ok v =>
            obtain ⟨r2, rest2⟩ := v
            simp only [hand] at h
            exact ((ihOrLoop _ _ _ _ h).trans (ihAnd _ _ _ hand)).trans
              (List.suffix_cons t rest1)
        · rw [if_neg ht] at h
          cases h
          exact List.suffix_refl _
    · intro tokens r rest h
      simp only [coordParseAnd] at h
      cases hnot : coordParseNot idx fuel tokens with
      | error e => simp [hnot] at h
      | ok v =>
        obtain ⟨r1, rest1⟩ := v
        simp only [hnot] at h
        exact (ihAndLoop _ _ _ _ h).trans (ihNot _ _ _ hnot)
    · intro acc tokens r rest h
      cases tokens with
      | nil =>
        simp only [coordParseAndLoop] at h
        cases h
        exact List.suffix_refl _
      | cons t rest1 =>
        simp only [coordParseAndLoop] at h
        by_cases ht : t = "and".toList
        · rw [if_pos ht] at h
          cases hnot : coordParseNot idx fuel rest1 with
          | error e => simp [hnot] at h
          | ok v =>
            obtain ⟨r2, rest2⟩ := v
            simp only [hnot] at h
            exact ((ihAndLoop _ _ _ _ h).trans (ihNot _ _ _ hnot)).trans
              (List.suffix_cons t rest1)
        · rw [if_neg ht] at h
          cases h
          exact List.suffix_refl _
    · intro tokens r rest h
      cases tokens with
      | nil =>
        simp only [coordParseNot] at h
        exact ihPrimary _ _ _ h
      | cons t rest1 =>
        simp only [coordParseNot] at h
        by_cases ht : t = "not".toList
        · rw [if_pos ht] at h
          cases hp : coordParsePrimary idx fuel rest1 with
          | error e => simp [hp] at h
          | ok v =>
            obtain ⟨r2, rest2⟩ := v
            simp only [hp] at h
            cases h
            exact (ihPrimary _ _ _ hp).trans (List.suffix_cons t rest1)
        · rw [if_neg ht] at h
          exact ihPrimary _ _ _ h
    · intro tokens r rest h
      cases tokens with
      | nil =>
        simp only [coordParsePrimary] at h
        simp at h
      | cons t rest1 =>
        simp only [coordParsePrimary] at h
        by_cases h1 : t = "(".toList
        · rw [if_pos h1] at h
          cases hor : coordParseOr idx fuel rest1 with
          | error e => simp [hor] at h
          | ok v =>
            obtain ⟨r2, rest2⟩ := v
            simp only [hor] at h
            cases rest2 with
            | nil => simp at h
            | cons t2 rest3 =>
              dsimp only at h
              by_cases h2 : t2 = ")".toList
              · rw [if_pos h2] at h
                cases h
                exact ((List.suffix_cons t2 rest).trans
                  (ihOr _ _ _ hor)).trans (List.suffix_cons t rest1)
              · rw [if_neg h2] at h
                simp at h
        · rw [if_neg h1] at h
          by_cases h2 : t = "\"".toList
          · rw [if_pos h2] at h
            cases hdw : rest1.dropWhile (notTok quoteTok) with
            | nil => simp [hdw] at h
            | cons x rest3 =>
              simp only [hdw] at h
              cases hsp : idx.search_phrase
                  (joinSpace (rest1.takeWhile (notTok quoteTok))) with
              | error e => simp [hsp] at h
              | ok s =>
                simp only [hsp] at h
                cases h
                have hx : (x :: rest) <:+ rest1 := hdw ▸ List.dropWhile_suffix _
                exact ((List.suffix_cons x rest).trans hx).trans
                  (List.suffix_cons t rest1)
          · rw [if_neg h2] at h
            by_cases h3 : t.take 5 = "near/".toList
            · rw [if_pos h3] at h
              cases hpu : parseUsize (t.drop 5) with
              | none => simp [hpu] at h
              | some dist =>
                rw [hpu] at h
                cases rest1 with
                | nil => simp at h
                | cons t2 rest2 =>
                  dsimp only at h
                  by_cases h4 : t2 = "(".toList
                  · rw [if_pos h4] at h
                    cases hdw : rest2.dropWhile (notTok closeParenTok) with
                    | nil => simp [hdw] at h
                    | cons x rest3 =>
                      simp only [hdw] at h
                      by_cases h5 :
                          (rest2.takeWhile (notTok closeParenTok)).length < 2
                      · rw [if_pos h5] at h
                        simp at h
                      · rw [if_neg h5] at h
                        cases hsx : idx.search_proximity
                            (rest2.takeWhile (notTok closeParenTok)) dist with
                        | error e => simp [hsx] at h
                        | ok s =>
                          simp only [hsx] at h
                          cases h
                          have hx : (x :: rest) <:+ rest2 :=
                            hdw ▸ List.dropWhile_suffix _
                          exact (((List.suffix_cons x rest).trans hx).trans
                            (List.suffix_cons t2 rest2)).trans
                            (List.suffix_cons t (t2 :: rest2))
                  · rw [if_neg h4] at h
                    simp at h
            · rw [if_neg h3] at h
              cases hst : idx.search_term t with
              | error e => simp [hst] at h
              | ok s =>
                simp only [hst] at h
                cases h
                exact List.suffix_cons t rest

/-- A one-term coordinate index: document `d1` containing `abc`. -/
def idx8 : CoordinateIndex :=
  ⟨[("abc".toList, [⟨"d1".toList, [0]⟩])], ["d1".toList]⟩

/-- C8 counterexample: a query with an extra unmatched `)` after a complete
expression is accepted (trailing tokens are ignored), and a quoted phrase
of a single word does not fail either — it degrades to a term lookup. -/
theorem coord_search_errors_claim_false :
    idx8.search ("abc )".toList) = Except.ok {"d1".toList} ∧
      idx8.search ("\" abc \"".toList) = Except.ok {"d1".toList} :=
  ⟨by decide, by decide⟩

lemma coordOr_paren_unclosed (idx : CoordinateIndex) (rest : List Str)
    (hnp : ((")".toList : Str)) ∉ rest) (fuel : Nat) :
    ∃ e, coordParseOr idx (fuel + 4) ("(".toList :: rest) = .error e := by
  have hno : ¬ (("(".toList : Str) = "not".toList) := by decide
  simp only [coordParseOr, coordParseAnd, coordParseNot]
  rw [if_neg hno]
  simp only [coordParsePrimary]
  rw [if_pos trivial]
  cases hor : coordParseOr idx fuel rest with
  | error e => exact ⟨e, rfl⟩
  | ok v =>
    obtain ⟨r2, rest2⟩ := v
    cases rest2 with
    | nil => exact ⟨.missingParen, rfl⟩
    | cons t2 rest3 =>
      have ht2 : ¬ (t2 = ")".toList) := by
        intro hcontra
        subst hcontra
        exact hnp (((coordParse_suffix idx fuel).1 _ _ _ hor).subset
          (List.mem_cons_self _ _))
      dsimp only
      rw [if_neg ht2]
      exact ⟨.missingParen, rfl⟩

lemma coordOr_quote_unclosed (idx : CoordinateIndex) (rest : List Str)
    (hnq : (("\"".toList : Str)) ∉ rest) (fuel : Nat) :
    ∃ e, coordParseOr idx (fuel + 4) ("\"".toList :: rest) = .error e := by
  have hno : ¬ (("\"".toList : Str) = "not".toList) := by decide
  have hnpar : ¬ (("\"".toList : Str) = "(".toList) := by decide
  have hdw : rest.dropWhile (notTok quoteTok) = [] := by
    rw [List.dropWhile_eq_nil_iff]
    intro x hx
    have hxq : ¬ (x = "\"".toList) := fun hc => hnq (hc ▸ hx)
    simp [notTok, quoteTok]
    exact hxq
  simp only [coordParseOr, coordParseAnd, coordParseNot]
  rw [if_neg hno]
  simp only [coordParsePrimary]
  rw [if_neg hnpar, if_pos trivial, hdw]
  exact ⟨.missingQuote, rfl⟩

lemma coordOr_near_bad_distance (idx : CoordinateIndex) (s : Str)
    (rest : List Str) (hbad : parseUsize s = none) (fuel : Nat) :
    ∃ e, coordParseOr idx (fuel + 4) (("near/".toList ++ s) :: rest) = .error e := by
  have hlit : ("near/".toList : Str) = ['n', 'e', 'a', 'r', '/'] := rfl
  have hno : ¬ (("near/".toList ++ s : Str) = "not".toList) := by
    rw [hlit]
    intro h
    simp at h
  have hnpar : ¬ (("near/".toList ++ s : Str) = "(".toList) := by
    rw [hlit]
    intro h
    simp at h
  have hnq : ¬ (("near/".toList ++ s : Str) = "\"".toList) := by
    rw [hlit]
    intro h
    simp at h
  have htake : (("near/".toList ++ s : Str)).take 5 = "near/".toList := by
    rw [hlit]
    rfl
  have hdrop : (("near/".toList ++ s : Str)).drop 5 = s := by
    rw [hlit]
    rfl
  simp only [coordParseOr, coordParseAnd, coordParseNot]
  rw [if_neg hno]
  simp only [coordParsePrimary]
  rw [if_neg hnpar, if_neg hnq, if_pos htake, hdrop, hbad]
  exact ⟨.invalidDistance s, rfl⟩

/-- C8 amended: the evaluator rejects the empty query, a query opening a
parenthesis that is never closed, a query opening a quote that is never
closed, and a `near/`-query whose distance does not parse as a number.
But a quoted phrase of fewer than two words is *not* rejected (one word
degrades to a term lookup, zero words yield the empty set), and extra
unmatched tokens after a complete expression — e.g. a stray `)` — are
silently ignored. -/
theorem coord_search_syntax_errors :
    (∀ idx : CoordinateIndex, idx.search [] = .error .unexpectedEnd) ∧
      (∀ (idx : CoordinateIndex) (rest : List Str), ((")".toList : Str)) ∉ rest →
        ∃ e, idx.searchTokens ("(".toList :: rest) = .error e) ∧
      (∀ (idx : CoordinateIndex) (rest : List Str), (("\"".toList : Str)) ∉ rest →
        ∃ e, idx.searchTokens ("\"".toList :: rest) = .error e) ∧
      (∀ (idx : CoordinateIndex) (s : Str) (rest : List Str), parseUsize s = none →
        ∃ e, idx.searchTokens (("near/".toList ++ s) :: rest) = .error e) := by
  refine ⟨fun idx => rfl, ?_, ?_, ?_⟩
  · intro idx rest hnp
    obtain ⟨e, he⟩ := coordOr_paren_unclosed idx rest hnp (4 * rest.length + 4)
    refine ⟨e, ?_⟩
    have hfuel : 4 * (("(".toList :: rest : List Str)).length + 4 =
        4 * rest.length + 4 + 4 := by
      simp [List.length_cons]
      ring
    simp only [CoordinateIndex.searchTokens, hfuel, he]
  · intro idx rest hnq
    obtain ⟨e, he⟩ := coordOr_quote_unclosed idx rest hnq (4 * rest.length + 4)
    refine ⟨e, ?_⟩
    have hfuel : 4 * (("\"".toList :: rest : List Str)).length + 4 =
        4 * rest.length + 4 + 4 := by
      simp [List.length_cons]
      ring
    simp only [CoordinateIndex.searchTokens, hfuel, he]
  · intro idx s rest hbad
    obtain ⟨e, he⟩ := coordOr_near_bad_distance idx s rest hbad (4 * rest.length + 4)
    refine ⟨e, ?_⟩
    have hfuel : 4 * ((("near/".toList ++ s) :: rest : List Str)).length + 4 =
        4 * rest.length + 4 + 4 := by
      simp [List.length_cons]
      ring
    simp only [CoordinateIndex.searchTokens, hfuel, he]

theorem coord_search_syntax_errors_witness :
    ((")".toList : Str)) ∉ ([("abc".toList : Str)] : List Str) ∧
      ∃ e, idx8.searchTokens ("(".toList :: [("abc".toList : Str)]) = .error e :=
  ⟨by decide, coord_search_syntax_errors.2.1 idx8 ["abc".toList] (by decide)⟩

/- ### Wildcard indices: suffix tree, permutation index, trigram index (C4, C10)

Shallow embedding of src/task1/src/suffix_tree.rs, permutation_index.rs and
trigram_index.rs.  Strings are `Str = List Char`; Rust byte slicing and
`str::len` are modelled through an explicit UTF-8 encoder.  The recursive
`find_with_wildcards` walk of the suffix tree takes `&pattern[1..]` before
branching, which panics when the first character of the pattern is longer than
one UTF-8 byte; the walk is modelled with fuel (structural on `Nat`) so that
concrete evaluations reduce in the kernel, the panic being the `SErr.panic`
error and fuel exhaustion the distinct `SErr.fuelOut` (the supplied fuel
`2 * (nodeSize root + |pattern|) + 2` dominates the recursion depth, so a
`.ok`/`.panic` result is the real outcome of the Rust recursion).
`glob_match_bytes` is the byte-level backtracking matcher of
TrigramIndex::glob_match_bytes, likewise fuel-based with a fuel that exceeds
the loop's lexicographic bound. -/
-- ## UTF-8 bytes (Rust str::as_bytes / byte indices)

def utf8EncodeChar (c : Char) : List Nat :=
  let n := c.toNat
  if n < 128 then [n]
  else if n < 2048 then [192 + n / 64, 128 + n % 64]
  else if n < 65536 then [224 + n / 4096, 128 + (n / 64) % 64, 128 + n % 64]
  else [240 + n / 262144, 128 + (n / 4096) % 64, 128 + (n / 64) % 64, 128 + n % 64]

def strBytes (s : Str) : List Nat := s.flatMap utf8EncodeChar

def utf8Len (c : Char) : Nat := (utf8EncodeChar c).length

def termByteLen (t : Str) : Nat := (strBytes t).length

-- ## glob matcher (TrigramIndex::glob_match_bytes)

def skipStars (pat : List Nat) : Nat → Nat → Bool
  | 0, ppos => ppos == pat.length
  | fuel + 1, ppos =>
    if ppos < pat.length ∧ pat.getD ppos 0 = 42 then skipStars pat fuel (ppos + 1)
    else ppos == pat.length

def globLoop (text pat : List Nat) : Nat → Nat → Nat → Option Nat → Nat → Bool
  | 0, _, _, _, _ => false
  | fuel + 1, tpos, ppos, star, backup =>
    if tpos < text.length then
      if ppos < pat.length ∧
          (pat.getD ppos 0 = text.getD tpos 0 ∨ pat.getD ppos 0 = 63) then
        globLoop text pat fuel (tpos + 1) (ppos + 1) star backup
      else if ppos < pat.length ∧ pat.getD ppos 0 = 42 then
        globLoop text pat fuel tpos (ppos + 1) (some ppos) tpos
      else
        match star with
        | some s => globLoop text pat fuel (backup + 1) (s + 1) (some s) (backup + 1)
        | none => false
    else skipStars pat (pat.length + 1) ppos

def globFuel (text pat : List Nat) : Nat :=
  (text.length + 1) * (pat.length + 1) * (text.length + 2) + 1

def glob_match_bytes (text pat : List Nat) : Bool :=
  globLoop text pat (globFuel text pat) 0 0 none 0

def glob_match (text pat : Str) : Bool := glob_match_bytes (strBytes text) (strBytes pat)

lemma skipStars_at_end (pat : List Nat) (fuel : Nat) :
    skipStars pat fuel pat.length = true := by
  cases fuel with
  | zero => simp [skipStars]
  | succ f => simp [skipStars]

lemma globLoop_self (text : List Nat) (star : Option Nat) (backup : Nat) :
    ∀ fuel k, k ≤ text.length → text.length - k < fuel →
      globLoop text text fuel k k star backup = true := by
  intro fuel
  induction fuel with
  | zero => intro k _ h; omega
  | succ f ih =>
    intro k hk hf
    by_cases hlt : k < text.length
    · simp only [globLoop]
      rw [if_pos hlt, if_pos ⟨hlt, Or.inl trivial⟩]
      exact ih (k + 1) (by omega) (by omega)
    · have hke : k = text.length := by omega
      simp only [globLoop]
      rw [if_neg hlt, hke]
      exact skipStars_at_end text _

lemma glob_match_bytes_self (l : List Nat) : glob_match_bytes l l = true := by
  apply globLoop_self l none 0 _ 0 (Nat.zero_le _)
  have h1 : l.length + 1 ≤ (l.length + 1) * ((l.length + 1) * (l.length + 2)) :=
    Nat.le_mul_of_pos_right _ (by positivity)
  calc l.length - 0 ≤ l.length := by omega
    _ < (l.length + 1) * (l.length + 1) * (l.length + 2) + 1 := by
        rw [mul_assoc]; omega

lemma glob_match_self (s : Str) : glob_match s s = true := glob_match_bytes_self _

-- ## Suffix tree

inductive SErr where
  | panic
  | fuelOut
deriving DecidableEq

mutual
inductive SuffixNode where
  | mk (children : ChildList) (is_terminal : Bool) (terms : List Str)
inductive ChildList where
  | nil
  | cons (c : Char) (n : SuffixNode) (rest : ChildList)
end

def SuffixNode.children : SuffixNode → ChildList
  | .mk ch _ _ => ch

def SuffixNode.terms : SuffixNode → List Str
  | .mk _ _ tm => tm

def SuffixNode.new : SuffixNode := .mk .nil false []

def childFind (k : Char) : ChildList → Option SuffixNode
  | .nil => none
  | .cons c n rest => if c = k then some n else childFind k rest

def childUpd (k : Char) (v : SuffixNode) : ChildList → ChildList
  | .nil => .cons k v .nil
  | .cons c n rest => if c = k then .cons k v rest else .cons c n (childUpd k v rest)

mutual
def nodeSize : SuffixNode → Nat
  | .mk ch _ _ => 1 + childSize ch
def childSize : ChildList → Nat
  | .nil => 0
  | .cons _ n rest => 1 + nodeSize n + childSize rest
end

def slice1 : Str → Option Str
  | [] => none
  | c :: rest => if utf8Len c = 1 then some rest else none

mutual

def findWW : Nat → SuffixNode → Str → Except SErr (List Str)
  | 0, _, _ => .error .fuelOut
  | fuel + 1, node, pattern =>
    match pattern with
    | [] => .ok node.terms
    | c :: _ =>
      match slice1 pattern with
      | none => .error .panic
      | some remaining =>
        if c = '*' then
          match findWWStar fuel node.children pattern remaining with
          | .error e => .error e
          | .ok s => .ok (node.terms ++ s)
        else if c = '?' then
          findWWQ fuel node.children remaining
        else
          match childFind c node.children with
          | some child => findWW fuel child remaining
          | none => .ok []

def findWWStar : Nat → ChildList → Str → Str → Except SErr (List Str)
  | 0, _, _, _ => .error .fuelOut
  | fuel + 1, children, pattern, remaining =>
    match children with
    | .nil => .ok []
    | .cons _ child rest =>
      match findWW fuel child pattern with
      | .error e => .error e
      | .ok s1 =>
        match findWW fuel child remaining with
        | .error e => .error e
        | .ok s2 =>
          match findWWStar fuel rest pattern remaining with
          | .error e => .error e
          | .ok s3 => .ok (s1 ++ s2 ++ s3)

def findWWQ : Nat → ChildList → Str → Except SErr (List Str)
  | 0, _, _ => .error .fuelOut
  | fuel + 1, children, remaining =>
    match children with
    | .nil => .ok []
    | .cons _ child rest =>
      match findWW fuel child remaining with
      | .error e => .error e
      | .ok s1 =>
        match findWWQ fuel rest remaining with
        | .error e => .error e
        | .ok s2 => .ok (s1 ++ s2)

end

def SuffixNode.insert_suffix : SuffixNode → Str → Str → SuffixNode
  | node, [], _ =>
    match node with
    | .mk ch _ tm => .mk ch true tm
  | node, c :: rest, term =>
    let child := match childFind c node.children with
      | some ch => ch
      | none => SuffixNode.new
    let child := match child with
      | .mk ch it tm => SuffixNode.mk ch it (term :: tm)
    let child := SuffixNode.insert_suffix child rest term
    match node with
    | .mk chs it tm => .mk (childUpd c child chs) it tm

def suffixesOf (t : Str) : List Str := (List.range t.length).map (fun i => t.drop i)

structure SuffixTree where
  root : SuffixNode

def SuffixTree.new : SuffixTree := ⟨SuffixNode.new⟩

def SuffixTree.add_term (t : SuffixTree) (term : Str) : SuffixTree :=
  ⟨(suffixesOf term).foldl (fun n suf => SuffixNode.insert_suffix n suf term) t.root⟩

def SuffixTree.from_terms (terms : List Str) : SuffixTree :=
  terms.foldl SuffixTree.add_term SuffixTree.new

def SuffixTree.find_matching_terms (t : SuffixTree) (pattern : Str) :
    Except SErr (List Str) :=
  if pattern = [] then .ok []
  else findWW (2 * (nodeSize t.root + pattern.length) + 2) t.root pattern

/-- Any pattern whose first character needs more than one UTF-8 byte makes
SuffixTree::find_with_wildcards slice `&pattern[1..]` off a char boundary:
the model returns the panic error for every tree. -/
theorem suffix_tree_multibyte (t : SuffixTree) (c : Char) (rest : Str)
    (h : utf8Len c ≠ 1) :
    t.find_matching_terms (c :: rest) = .error .panic := by
  rw [SuffixTree.find_matching_terms, if_neg (by simp)]
  obtain ⟨m, hm⟩ : ∃ m, 2 * (nodeSize t.root + (c :: rest).length) + 2 = m + 1 :=
    ⟨2 * (nodeSize t.root + (c :: rest).length) + 1, by omega⟩
  rw [hm]
  simp only [findWW, slice1, if_neg h]

/-- C10: SuffixTree::find_matching_terms is not total: on the pattern "я*"
(first character Cyrillic, two UTF-8 bytes — the tokenizer regex admits
Cyrillic into terms) the byte slice `&pattern[1..]` in find_with_wildcards
panics, for every suffix tree. -/
theorem suffix_tree_panics (t : SuffixTree) :
    t.find_matching_terms ("я*".toList) = .error .panic :=
  suffix_tree_multibyte t 'я' ['*'] (by decide)

-- ## Permutation index

def replaceFirstStar : Str → Str
  | [] => []
  | c :: rest => if c = '*' then '$' :: rest else c :: replaceFirstStar rest

def assocInsert (k : Str) (v : Str) : List (Str × List Str) → List (Str × List Str)
  | [] => [(k, [v])]
  | (k', vs) :: rest =>
    if k' = k then (k', v :: vs) :: rest else (k', vs) :: assocInsert k v rest

structure PermutationIndex where
  index : List (Str × List Str)

def generate_rotations_static (term : Str) : List Str :=
  let tm := term ++ ['$']
  (List.range tm.length).map (fun i => tm.drop i ++ tm.take i)

def PermutationIndex.from_terms (terms : List Str) : PermutationIndex :=
  ⟨terms.foldl (fun acc term =>
    (generate_rotations_static term).foldl (fun a rot => assocInsert rot term a) acc) []⟩

def matches_wildcard_pattern (rotation pat : Str) : Bool :=
  if pat.contains '$' then
    if pat.getLast? = some '$' then
      List.isPrefixOf (pat.take (pat.length - 1)) rotation
    else if pat.head? = some '$' then
      List.isSuffixOf pat.tail rotation
    else
      let parts := pat.splitOn '$'
      if parts.length = 2 && !(parts.getD 0 []).isEmpty && !(parts.getD 1 []).isEmpty then
        List.isPrefixOf (parts.getD 1 []) rotation && decide ((parts.getD 0 []) <:+: rotation)
      else false
  else decide (pat <:+: rotation)

def PermutationIndex.find_matching_terms (p : PermutationIndex) (pat : Str) : List Str :=
  if pat = [] then []
  else if pat.contains '*' then
    let marker :=
      if pat.getLast? = some '*' then replaceFirstStar pat
      else if pat.head? = some '*' then '$' :: pat.tail
      else
        let parts := pat.splitOn '*'
        if parts.length = 2 then (parts.getD 1 []) ++ '$' :: (parts.getD 0 []) else pat
    (p.index.filter (fun pr => matches_wildcard_pattern pr.1 marker)).foldr
      (fun pr acc => pr.2 ++ acc) []
  else
    let marker := pat ++ ['$']
    (p.index.filter (fun pr => List.isPrefixOf marker pr.1)).foldr
      (fun pr acc => pr.2 ++ acc) []

-- ## Trigram index

structure TrigramIndex where
  index : List (Str × List Str)

def windows3 (chars : Str) : List Str :=
  (List.range (chars.length - 2)).map (fun i => (chars.drop i).take 3)

def generate_trigrams_static (term : Str) : List Str :=
  if termByteLen term < 3 then [['$', '$'] ++ term ++ ['$', '$']]
  else windows3 (['$', '$'] ++ term)

def TrigramIndex.from_terms (terms : List Str) : TrigramIndex :=
  ⟨terms.foldl (fun acc term =>
    (generate_trigrams_static term).foldl (fun a tg => assocInsert tg term a) acc) []⟩

def longestRunGo : Str → Str → Str → Str
  | [], cur, longest => if termByteLen longest < termByteLen cur then cur else longest
  | c :: cs, cur, longest =>
    if c ≠ '*' ∧ c ≠ '?' then longestRunGo cs (cur ++ [c]) longest
    else if termByteLen longest < termByteLen cur then longestRunGo cs [] cur
    else longestRunGo cs [] longest

def find_longest_consecutive_chars (pat : Str) : Str := longestRunGo pat [] []

def extract_required_trigrams (pat : Str) : List Str :=
  let tgs := (windows3 pat).filter (fun w => !(w.contains '*' || w.contains '?'))
  if tgs = [] ∧ 3 ≤ termByteLen pat then
    let run := find_longest_consecutive_chars pat
    if 3 ≤ termByteLen run then windows3 (['$', '$'] ++ run) else tgs
  else tgs

def intersectGo (idx : List (Str × List Str)) :
    List Str → Option (List Str) → Option (List Str)
  | [], cands => some (cands.getD [])
  | tg :: rest, cands =>
    match assocFind tg idx with
    | none => none
    | some terms =>
      match cands with
      | none => intersectGo idx rest (some terms)
      | some existing => intersectGo idx rest (some (existing.filter (fun t => terms.contains t)))

def TrigramIndex.find_exact_match (ti : TrigramIndex) (pat : Str) : List Str :=
  match intersectGo ti.index (generate_trigrams_static pat) none with
  | none => []
  | some cands => cands.filter (fun t => t == pat)

def allTermsList (ti : TrigramIndex) : List Str :=
  ti.index.foldr (fun pr acc => pr.2 ++ acc) []

def TrigramIndex.find_matching_terms (ti : TrigramIndex) (pat : Str) : List Str :=
  if pat = [] then []
  else if !(pat.contains '*' || pat.contains '?') then ti.find_exact_match pat
  else
    let required := extract_required_trigrams pat
    if required = [] then
      (allTermsList ti).filter (fun term => glob_match term pat)
    else
      match intersectGo ti.index required none with
      | none => []
      | some cands => cands.filter (fun term => glob_match term pat)

/-- C4 (amended): the trigram index alone is sound: every term returned by
TrigramIndex::find_matching_terms satisfies glob_match(term, pattern) — the
wildcard paths filter candidates by glob_match, and the exact path only
returns terms equal to the pattern. -/
theorem trigram_subset (ti : TrigramIndex) (pat term : Str)
    (hmem : term ∈ ti.find_matching_terms pat) : glob_match term pat = true := by
  rw [TrigramIndex.find_matching_terms] at hmem
  split at hmem
  · exact absurd hmem (List.not_mem_nil _)
  · split at hmem
    · rw [TrigramIndex.find_exact_match] at hmem
      split at hmem
      · exact absurd hmem (List.not_mem_nil _)
      · have := (List.mem_filter.mp hmem).2
        have heq : term = pat := by simpa using this
        rw [heq]
        exact glob_match_self pat
    · simp only [] at hmem
      split at hmem
      · exact (List.mem_filter.mp hmem).2
      · split at hmem
        · exact absurd hmem (List.not_mem_nil _)
        · exact (List.mem_filter.mp hmem).2

/-- Witness for trigram_subset: on the index of {"abc"} and pattern "a*",
"abc" is returned and indeed glob-matches. -/
theorem trigram_subset_witness :
    ("abc".toList ∈ (TrigramIndex.from_terms ["abc".toList]).find_matching_terms
        ("a*".toList)) ∧
      glob_match ("abc".toList) ("a*".toList) = true :=
  ⟨by decide, trigram_subset (TrigramIndex.from_terms ["abc".toList]) ("a*".toList)
    ("abc".toList) (by decide)⟩

/-- C4 is false for the suffix tree and the permutation index: on the
dictionary {"xca"} the suffix tree returns "xca" for pattern "ca*" (suffix
descent gives substring, not anchored-prefix, semantics) though glob_match
"xca" "ca*" is false; and on the dictionary {"xab"} the permutation index
returns "xab" for pattern "ab*" (it drops the '$' marker from the rotation
prefix check) though glob_match "xab" "ab*" is false. -/
theorem wildcard_subset_claim_false :
    (SuffixTree.from_terms ["xca".toList]).find_matching_terms ("ca*".toList)
        = .ok ["xca".toList] ∧
      glob_match ("xca".toList) ("ca*".toList) = false ∧
      "xab".toList ∈
        (PermutationIndex.from_terms ["xab".toList]).find_matching_terms ("ab*".toList) ∧
      glob_match ("xab".toList) ("ab*".toList) = false := by
  refine ⟨by decide, by decide, by decide, by decide⟩

/- ### Boolean retrieval: incidence matrix vs inverted index (C2)

Shallow embedding of src/task1/src/incidence_matrix.rs and the Boolean
evaluator of src/task1/src/inverted_index.rs.  Both use the identical
recursive-descent grammar over the shared `tokenize`; the incidence matrix
computes on bit rows (`List Bool`, one bit per entry of its sorted
`documents` vector) and the inverted index on document sets (`Finset Str`).
`BErr` carries the error strings both evaluators produce word for word
("Unexpected end of query", "Missing closing parenthesis",
"Term '{}' not found"), plus the out-of-bounds `matrix[idx]` panic and fuel
exhaustion; the two models run on the same fuel, so they exhaust it at the
same points and the relation below covers every fuel. `bvRelated` is the
coherence a matrix/index pair built from one dictionary enjoys: equal term
lists (in order), one matrix row per term whose set of true positions spells
the term's document set, duplicate-free document universe shared by both. -/

structure IncidenceMatrix where
  terms : List Str
  documents : List Str
  matrix : List (List Bool)

structure InvertedIndex where
  index : List (Str × Finset Str)
  documents : List Str

inductive BErr where
  | unexpectedEnd
  | missingParen
  | termNotFound (t : Str)
  | indexPanic
  | fuelOut
deriving DecidableEq

def docList (docs : List Str) (row : List Bool) : List Str :=
  ((row.zip docs).filter (fun p => p.1)).map (fun p => p.2)

def docSet (docs : List Str) (row : List Bool) : Finset Str :=
  (docList docs row).toFinset

def IncidenceMatrix.get_matching_documents (m : IncidenceMatrix) (row : List Bool) :
    List Str :=
  docList m.documents row

def IncidenceMatrix.search_term (m : IncidenceMatrix) (t : Str) :
    Except BErr (List Bool) :=
  match m.terms.findIdx? (fun x => x == t) with
  | some idx =>
    match m.matrix[idx]? with
    | some row => .ok row
    | none => .error .indexPanic
  | none => .error (.termNotFound t)

def InvertedIndex.search_term (v : InvertedIndex) (t : Str) :
    Except BErr (Finset Str) :=
  match assocFind t v.index with
  | some docs => .ok docs
  | none => .error (.termNotFound t)

def bvOr (a b : List Bool) : List Bool := a.zipWith (fun x y => x || y) b

def bvAnd (a b : List Bool) : List Bool := a.zipWith (fun x y => x && y) b

def bvNot (a : List Bool) : List Bool := a.map (fun x => !x)

lemma docList_cons (d : Str) (docs : List Str) (b : Bool) (row : List Bool) :
    docList (d :: docs) (b :: row) =
      if b then d :: docList docs row else docList docs row := by
  by_cases hb : b <;> simp [docList, hb]

lemma mem_docList_mem (docs : List Str) (x : Str) :
    ∀ row, x ∈ docList docs row → x ∈ docs := by
  induction docs with
  | nil => intro row h; simp [docList] at h
  | cons d ds ih =>
    intro row h
    cases row with
    | nil => simp [docList] at h
    | cons b t =>
      rw [docList_cons] at h
      by_cases hb : b
      · rw [if_pos hb] at h
        rcases List.mem_cons.mp h with h | h
        · exact h ▸ List.mem_cons_self d ds
        · exact List.mem_cons_of_mem d (ih t h)
      · rw [if_neg hb] at h
        exact List.mem_cons_of_mem d (ih t h)

lemma mem_docList_or (docs : List Str) (x : Str) :
    ∀ r1 r2, r1.length = docs.length → r2.length = docs.length →
      (x ∈ docList docs (bvOr r1 r2) ↔ x ∈ docList docs r1 ∨ x ∈ docList docs r2) := by
  induction docs with
  | nil =>
    intro r1 r2 h1 h2
    rw [List.length_nil, List.length_eq_zero] at h1 h2
    subst h1; subst h2
    simp [docList, bvOr]
  | cons d ds ih =>
    intro r1 r2 h1 h2
    cases r1 with
    | nil => simp at h1
    | cons b1 t1 =>
      cases r2 with
      | nil => simp at h2
      | cons b2 t2 =>
        have h1' : t1.length = ds.length := by simpa using h1
        have h2' : t2.length = ds.length := by simpa using h2
        have hz : bvOr (b1 :: t1) (b2 :: t2) = (b1 || b2) :: bvOr t1 t2 := rfl
        rw [hz, docList_cons, docList_cons, docList_cons]
        by_cases hb1 : b1 <;> by_cases hb2 : b2 <;>
          simp only [hb1, hb2, Bool.true_or, Bool.false_or, Bool.or_false,
            if_pos, if_neg, Bool.false_eq_true, not_false_eq_true, if_true, if_false,
            List.mem_cons, ih t1 t2 h1' h2'] <;> tauto

lemma mem_docList_and (docs : List Str) (x : Str) (hnd : docs.Nodup) :
    ∀ r1 r2, r1.length = docs.length → r2.length = docs.length →
      (x ∈ docList docs (bvAnd r1 r2) ↔ x ∈ docList docs r1 ∧ x ∈ docList docs r2) := by
  induction docs with
  | nil =>
    intro r1 r2 h1 h2
    rw [List.length_nil, List.length_eq_zero] at h1 h2
    subst h1; subst h2
    simp [docList, bvAnd]
  | cons d ds ih =>
    intro r1 r2 h1 h2
    rcases List.nodup_cons.mp hnd with ⟨hd, hnd'⟩
    cases r1 with
    | nil => simp at h1
    | cons b1 t1 =>
      cases r2 with
      | nil => simp at h2
      | cons b2 t2 =>
        have h1' : t1.length = ds.length := by simpa using h1
        have h2' : t2.length = ds.length := by simpa using h2
        have hz : bvAnd (b1 :: t1) (b2 :: t2) = (b1 && b2) :: bvAnd t1 t2 := rfl
        have hxd1 : x = d → x ∉ docList ds t1 :=
          fun he hm => hd (he ▸ mem_docList_mem ds x t1 hm)
        have hxd2 : x = d → x ∉ docList ds t2 :=
          fun he hm => hd (he ▸ mem_docList_mem ds x t2 hm)
        rw [hz, docList_cons, docList_cons, docList_cons]
        by_cases hb1 : b1 <;> by_cases hb2 : b2 <;>
          simp only [hb1, hb2, Bool.true_and, Bool.false_and, Bool.and_false,
            if_pos, if_neg, Bool.false_eq_true, not_false_eq_true, if_true, if_false,
            List.mem_cons, ih hnd' t1 t2 h1' h2'] <;> tauto

lemma mem_docList_not (docs : List Str) (x : Str) (hnd : docs.Nodup) :
    ∀ row, row.length = docs.length →
      (x ∈ docList docs (bvNot row) ↔ x ∈ docs ∧ x ∉ docList docs row) := by
  induction docs with
  | nil =>
    intro row h1
    rw [List.length_nil, List.length_eq_zero] at h1
    subst h1
    simp [docList, bvNot]
  | cons d ds ih =>
    intro row h1
    rcases List.nodup_cons.mp hnd with ⟨hd, hnd'⟩
    cases row with
    | nil => simp at h1
    | cons b t =>
      have h1' : t.length = ds.length := by simpa using h1
      have hz : bvNot (b :: t) = (!b) :: bvNot t := rfl
      have hxd : x = d → x ∉ ds := fun he => he ▸ hd
      have hxdt : x = d → x ∉ docList ds t :=
        fun he hm => hd (he ▸ mem_docList_mem ds x t hm)
      rw [hz, docList_cons, docList_cons]
      by_cases hb : b <;>
        simp only [hb, Bool.not_true, Bool.not_false, if_pos, if_neg,
          Bool.false_eq_true, not_false_eq_true, if_true, if_false,
          List.mem_cons, ih hnd' t h1'] <;> tauto

lemma bvOr_length (a b : List Bool) (n : Nat) (ha : a.length = n) (hb : b.length = n) :
    (bvOr a b).length = n := by
  simp [bvOr, ha, hb]

lemma bvAnd_length (a b : List Bool) (n : Nat) (ha : a.length = n) (hb : b.length = n) :
    (bvAnd a b).length = n := by
  simp [bvAnd, ha, hb]

lemma bvNot_length (a : List Bool) : (bvNot a).length = a.length := by
  simp [bvNot]

lemma docSet_or (docs : List Str) (r1 r2 : List Bool)
    (h1 : r1.length = docs.length) (h2 : r2.length = docs.length) :
    docSet docs (bvOr r1 r2) = docSet docs r1 ∪ docSet docs r2 := by
  ext x
  simp [docSet, mem_docList_or docs x r1 r2 h1 h2]

lemma docSet_and (docs : List Str) (hnd : docs.Nodup) (r1 r2 : List Bool)
    (h1 : r1.length = docs.length) (h2 : r2.length = docs.length) :
    docSet docs (bvAnd r1 r2) = docSet docs r1 ∩ docSet docs r2 := by
  ext x
  simp [docSet, mem_docList_and docs x hnd r1 r2 h1 h2]

lemma docSet_not (docs : List Str) (hnd : docs.Nodup) (row : List Bool)
    (h1 : row.length = docs.length) :
    docSet docs (bvNot row) = docs.toFinset \ docSet docs row := by
  ext x
  simp [docSet, mem_docList_not docs x hnd row h1]

lemma lookup_rel (docs : List Str) (t : Str) :
    ∀ (l : List (Str × Finset Str)) (mat : List (List Bool)),
      mat.length = l.length →
      (∀ p ∈ mat.zip l, docSet docs p.1 = p.2.2) →
      ((l.map Prod.fst).findIdx? (fun x => x == t) = none ∧ assocFind t l = none) ∨
      (∃ i row, (l.map Prod.fst).findIdx? (fun x => x == t) = some i ∧
        mat[i]? = some row ∧ assocFind t l = some (docSet docs row)) := by
  intro l
  induction l with
  | nil =>
    intro mat _ _
    left
    simp [assocFind]
  | cons p rest ih =>
    intro mat hlen hall
    obtain ⟨k, s⟩ := p
    cases mat with
    | nil => simp at hlen
    | cons row mrest =>
      have hhead : docSet docs row = s := hall (row, (k, s)) (by simp [List.zip_cons_cons])
      have htail : ∀ q ∈ mrest.zip rest, docSet docs q.1 = q.2.2 :=
        fun q hq => hall q (by simp [List.zip_cons_cons, hq])
      have hlen' : mrest.length = rest.length := by simpa using hlen
      by_cases hk : k = t
      · right
        refine ⟨0, row, ?_, by simp, ?_⟩
        · simp [List.findIdx?_cons, hk]
        · simp [assocFind, hk, hhead]
      · have hfind : ((k :: rest.map Prod.fst).findIdx? (fun x => x == t)) =
            ((rest.map Prod.fst).findIdx? (fun x => x == t)).map (· + 1) := by
          simp [List.findIdx?_cons, hk]
        rcases ih mrest hlen' htail with ⟨hnone, hanone⟩ | ⟨i, row', hfi, hmi, hai⟩
        · left
          constructor
          · simp only [List.map_cons, hfind, hnone, Option.map_none']
          · simp [assocFind, hk, hanone]
        · right
          refine ⟨i + 1, row', ?_, ?_, ?_⟩
          · simp only [List.map_cons, hfind, hfi, Option.map_some']
          · simpa using hmi
          · simp [assocFind, hk, hai]

mutual

def matParseOr (m : IncidenceMatrix) :
    Nat → List Str → Except BErr (List Bool × List Str)
  | 0, _ => .error .fuelOut
  | fuel + 1, tokens =>
    match matParseAnd m fuel tokens with
    | .error e => .error e
    | .ok (v, rest) => matParseOrLoop m fuel v rest

def matParseOrLoop (m : IncidenceMatrix) :
    Nat → List Bool → List Str → Except BErr (List Bool × List Str)
  | 0, _, _ => .error .fuelOut
  | fuel + 1, acc, tokens =>
    match tokens with
    | tok :: rest =>
      if tok = "or".toList then
        match matParseAnd m fuel rest with
        | .error e => .error e
        | .ok (v, rest2) => matParseOrLoop m fuel (bvOr acc v) rest2
      else .ok (acc, tokens)
    | [] => .ok (acc, tokens)

def matParseAnd (m : IncidenceMatrix) :
    Nat → List Str → Except BErr (List Bool × List Str)
  | 0, _ => .error .fuelOut
  | fuel + 1, tokens =>
    match matParseNot m fuel tokens with
    | .error e => .error e
    | .ok (v, rest) => matParseAndLoop m fuel v rest

def matParseAndLoop (m : IncidenceMatrix) :
    Nat → List Bool → List Str → Except BErr (List Bool × List Str)
  | 0, _, _ => .error .fuelOut
  | fuel + 1, acc, tokens =>
    match tokens with
    | tok :: rest =>
      if tok = "and".toList then
        match matParseNot m fuel rest with
        | .error e => .error e
        | .ok (v, rest2) => matParseAndLoop m fuel (bvAnd acc v) rest2
      else .ok (acc, tokens)
    | [] => .ok (acc, tokens)

def matParseNot (m : IncidenceMatrix) :
    Nat → List Str → Except BErr (List Bool × List Str)
  | 0, _ => .error .fuelOut
  | fuel + 1, tokens =>
    match tokens with
    | tok :: rest =>
      if tok = "not".toList then
        match matParsePrimary m fuel rest with
        | .error e => .error e
        | .ok (v, rest2) => .ok (bvNot v, rest2)
      else matParsePrimary m fuel tokens
    | [] => matParsePrimary m fuel tokens

def matParsePrimary (m : IncidenceMatrix) :
    Nat → List Str → Except BErr (List Bool × List Str)
  | 0, _ => .error .fuelOut
  | fuel + 1, tokens =>
    match tokens with
    | [] => .error .unexpectedEnd
    | tok :: rest =>
      if tok = "(".toList then
        match matParseOr m fuel rest with
        | .error e => .error e
        | .ok (v, rest2) =>
          match rest2 with
          | closing :: rest3 =>
            if closing = ")".toList then .ok (v, rest3) else .error .missingParen
          | [] => .error .missingParen
      else
        match m.search_term tok with
        | .error e => .error e
        | .ok v => .ok (v, rest)

end

mutual

def invParseOr (v : InvertedIndex) :
    Nat → List Str → Except BErr (Finset Str × List Str)
  | 0, _ => .error .fuelOut
  | fuel + 1, tokens =>
    match invParseAnd v fuel tokens with
    | .error e => .error e
    | .ok (s, rest) => invParseOrLoop v fuel s rest

def invParseOrLoop (v : InvertedIndex) :
    Nat → Finset Str → List Str → Except BErr (Finset Str × List Str)
  | 0, _, _ => .error .fuelOut
  | fuel + 1, acc, tokens =>
    match tokens with
    | tok :: rest =>
      if tok = "or".toList then
        match invParseAnd v fuel rest with
        | .error e => .error e
        | .ok (s, rest2) => invParseOrLoop v fuel (acc ∪ s) rest2
      else .ok (acc, tokens)
    | [] => .ok (acc, tokens)

def invParseAnd (v : InvertedIndex) :
    Nat → List Str → Except BErr (Finset Str × List Str)
  | 0, _ => .error .fuelOut
  | fuel + 1, tokens =>
    match invParseNot v fuel tokens with
    | .error e => .error e
    | .ok (s, rest) => invParseAndLoop v fuel s rest

def invParseAndLoop (v : InvertedIndex) :
    Nat → Finset Str → List Str → Except BErr (Finset Str × List Str)
  | 0, _, _ => .error .fuelOut
  | fuel + 1, acc, tokens =>
    match tokens with
    | tok :: rest =>
      if tok = "and".toList then
        match invParseNot v fuel rest with
        | .error e => .error e
        | .ok (s, rest2) => invParseAndLoop v fuel (acc ∩ s) rest2
      else .ok (acc, tokens)
    | [] => .ok (acc, tokens)

def invParseNot (v : InvertedIndex) :
    Nat → List Str → Except BErr (Finset Str × List Str)
  | 0, _ => .error .fuelOut
  | fuel + 1, tokens =>
    match tokens with
    | tok :: rest =>
      if tok = "not".toList then
        match invParsePrimary v fuel rest with
        | .error e => .error e
        | .ok (s, rest2) => .ok (v.documents.toFinset \ s, rest2)
      else invParsePrimary v fuel tokens
    | [] => invParsePrimary v fuel tokens

def invParsePrimary (v : InvertedIndex) :
    Nat → List Str → Except BErr (Finset Str × List Str)
  | 0, _ => .error .fuelOut
  | fuel + 1, tokens =>
    match tokens with
    | [] => .error .unexpectedEnd
    | tok :: rest =>
      if tok = "(".toList then
        match invParseOr v fuel rest with
        | .error e => .error e
        | .ok (s, rest2) =>
          match rest2 with
          | closing :: rest3 =>
            if closing = ")".toList then .ok (s, rest3) else .error .missingParen
          | [] => .error .missingParen
      else
        match v.search_term tok with
        | .error e => .error e
        | .ok s => .ok (s, rest)

end

def IncidenceMatrix.searchTokens (m : IncidenceMatrix) (tokens : List Str) :
    Except BErr (List Bool) :=
  match matParseOr m (4 * tokens.length + 4) tokens with
  | .error e => .error e
  | .ok (row, _) => .ok row

def IncidenceMatrix.search (m : IncidenceMatrix) (q : Str) : Except BErr (List Bool) :=
  m.searchTokens (tokenize (to_lowercase q))

def InvertedIndex.searchTokens (v : InvertedIndex) (tokens : List Str) :
    Except BErr (Finset Str) :=
  match invParseOr v (4 * tokens.length + 4) tokens with
  | .error e => .error e
  | .ok (s, _) => .ok s

def InvertedIndex.search (v : InvertedIndex) (q : Str) : Except BErr (Finset Str) :=
  v.searchTokens (tokenize (to_lowercase q))

def bvRelated (m : IncidenceMatrix) (v : InvertedIndex) : Bool :=
  (v.index.map Prod.fst == m.terms) &&
  (m.matrix.length == v.index.length) &&
  m.matrix.all (fun row => row.length == m.documents.length) &&
  decide m.documents.Nodup &&
  (v.documents.toFinset == m.documents.toFinset) &&
  (m.matrix.zip v.index).all (fun p => docSet m.documents p.1 == p.2.2)

def BRel (docs : List Str) (a : Except BErr (List Bool × List Str))
    (b : Except BErr (Finset Str × List Str)) : Prop :=
  (∀ row rest, a = .ok (row, rest) →
      ∃ s, b = .ok (s, rest) ∧ row.length = docs.length ∧ docSet docs row = s) ∧
  (∀ e, a = .error e → b = .error e)

lemma BRel_error (docs : List Str) (e : BErr) :
    BRel docs (.error e) (.error e) := by
  constructor
  · intro r rest h
    cases h
  · intro e2 h
    cases h
    rfl

lemma BRel_ok (docs : List Str) (row : List Bool) (rest : List Str) (s : Finset Str)
    (hlen : row.length = docs.length) (hset : docSet docs row = s) :
    BRel docs (.ok (row, rest)) (.ok (s, rest)) := by
  constructor
  · intro r2 rest2 h
    cases h
    exact ⟨s, rfl, hlen, hset⟩
  · intro e h
    cases h

lemma search_term_rel (m : IncidenceMatrix) (v : InvertedIndex)
    (hrel : bvRelated m v = true) (t : Str) :
    (∀ row, m.search_term t = .ok row →
        ∃ s, v.search_term t = .ok s ∧ row.length = m.documents.length ∧
          docSet m.documents row = s) ∧
    (∀ e, m.search_term t = .error e → v.search_term t = .error e) := by
  simp only [bvRelated, Bool.and_eq_true, beq_iff_eq, decide_eq_true_eq,
    List.all_eq_true] at hrel
  obtain ⟨⟨⟨⟨⟨hkeys, hlenz⟩, hrows⟩, hnd⟩, hdocs⟩, hall⟩ := hrel
  have hall' : ∀ p ∈ m.matrix.zip v.index, docSet m.documents p.1 = p.2.2 := by
    intro p hp
    simpa using hall p hp
  rcases lookup_rel m.documents t v.index m.matrix hlenz hall' with
    ⟨hfn, han⟩ | ⟨i, row, hfi, hmi, hai⟩
  · rw [hkeys] at hfn
    constructor
    · intro row h
      rw [IncidenceMatrix.search_term, hfn] at h
      cases h
    · intro e h
      rw [IncidenceMatrix.search_term, hfn] at h
      cases h
      rw [InvertedIndex.search_term, han]
  · rw [hkeys] at hfi
    have hmem : row ∈ m.matrix := by
      rcases List.getElem?_eq_some.mp hmi with ⟨hi, hrow⟩
      exact hrow ▸ List.getElem_mem hi
    have hlenr : row.length = m.documents.length := by
      simpa using hrows row hmem
    constructor
    · intro row2 h
      rw [IncidenceMatrix.search_term, hfi] at h
      dsimp only at h
      rw [hmi] at h
      cases h
      exact ⟨docSet m.documents row, by rw [InvertedIndex.search_term, hai], hlenr, rfl⟩
    · intro e h
      rw [IncidenceMatrix.search_term, hfi] at h
      dsimp only at h
      rw [hmi] at h
      cases h

lemma parse_rel (m : IncidenceMatrix) (v : InvertedIndex)
    (hrel : bvRelated m v = true) : ∀ fuel : Nat,
    (∀ tokens, BRel m.documents (matParseOr m fuel tokens) (invParseOr v fuel tokens)) ∧
    (∀ acc s tokens, acc.length = m.documents.length → docSet m.documents acc = s →
        BRel m.documents (matParseOrLoop m fuel acc tokens)
          (invParseOrLoop v fuel s tokens)) ∧
    (∀ tokens, BRel m.documents (matParseAnd m fuel tokens) (invParseAnd v fuel tokens)) ∧
    (∀ acc s tokens, acc.length = m.documents.length → docSet m.documents acc = s →
        BRel m.documents (matParseAndLoop m fuel acc tokens)
          (invParseAndLoop v fuel s tokens)) ∧
    (∀ tokens, BRel m.documents (matParseNot m fuel tokens) (invParseNot v fuel tokens)) ∧
    (∀ tokens, BRel m.documents (matParsePrimary m fuel tokens)
        (invParsePrimary v fuel tokens)) := by
  have hnd : m.documents.Nodup := by
    simp only [bvRelated, Bool.and_eq_true, decide_eq_true_eq] at hrel
    exact hrel.1.1.2
  have hdocs : v.documents.toFinset = m.documents.toFinset := by
    simp only [bvRelated, Bool.and_eq_true, beq_iff_eq] at hrel
    exact hrel.1.2
  intro fuel
  induction fuel with
  | zero =>
    refine ⟨fun tokens => BRel_error _ _, fun acc s tokens _ _ => BRel_error _ _,
      fun tokens => BRel_error _ _, fun acc s tokens _ _ => BRel_error _ _,
      fun tokens => BRel_error _ _, fun tokens => BRel_error _ _⟩
  | succ f ih =>
    obtain ⟨ihOr, ihOrL, ihAnd, ihAndL, ihNot, ihPrim⟩ := ih
    refine ⟨?_, ?_, ?_, ?_, ?_, ?_⟩
    · intro tokens
      simp only [matParseOr, invParseOr]
      cases hma : matParseAnd m f tokens with
      | error e =>
        rw [(ihAnd tokens).2 e hma]
        exact BRel_error _ _
      | ok pr =>
        obtain ⟨row, rest⟩ := pr
        obtain ⟨s, hb, hlen, hset⟩ := (ihAnd tokens).1 row rest hma
        rw [hb]
        exact ihOrL row s rest hlen hset
    · intro acc s tokens hlen hset
      simp only [matParseOrLoop, invParseOrLoop]
      cases tokens with
      | nil => exact BRel_ok _ _ _ _ hlen hset
      | cons tok rest =>
        dsimp only
        by_cases htok : tok = "or".toList
        · rw [if_pos htok, if_pos htok]
          cases hma : matParseAnd m f rest with
          | error e =>
            rw [(ihAnd rest).2 e hma]
            exact BRel_error _ _
          | ok pr =>
            obtain ⟨row2, rest2⟩ := pr
            obtain ⟨s2, hb, hlen2, hset2⟩ := (ihAnd rest).1 row2 rest2 hma
            rw [hb]
            refine ihOrL (bvOr acc row2) (s ∪ s2) rest2
              (bvOr_length _ _ _ hlen hlen2) ?_
            rw [docSet_or m.documents acc row2 hlen hlen2, hset, hset2]
        · rw [if_neg htok, if_neg htok]
          exact BRel_ok _ _ _ _ hlen hset
    · intro tokens
      simp only [matParseAnd, invParseAnd]
      cases hma : matParseNot m f tokens with
      | error e =>
        rw [(ihNot tokens).2 e hma]
        exact BRel_error _ _
      | ok pr =>
        obtain ⟨row, rest⟩ := pr
        obtain ⟨s, hb, hlen, hset⟩ := (ihNot tokens).1 row rest hma
        rw [hb]
        exact ihAndL row s rest hlen hset
    · intro acc s tokens hlen hset
      simp only [matParseAndLoop, invParseAndLoop]
      cases tokens with
      | nil => exact BRel_ok _ _ _ _ hlen hset
      | cons tok rest =>
        dsimp only
        by_cases htok : tok = "and".toList
        · rw [if_pos htok, if_pos htok]
          cases hma : matParseNot m f rest with
          | error e =>
            rw [(ihNot rest).2 e hma]
            exact BRel_error _ _
          | ok pr =>
            obtain ⟨row2, rest2⟩ := pr
            obtain ⟨s2, hb, hlen2, hset2⟩ := (ihNot rest).1 row2 rest2 hma
            rw [hb]
            refine ihAndL (bvAnd acc row2) (s ∩ s2) rest2
              (bvAnd_length _ _ _ hlen hlen2) ?_
            rw [docSet_and m.documents hnd acc row2 hlen hlen2, hset, hset2]
        · rw [if_neg htok, if_neg htok]
          exact BRel_ok _ _ _ _ hlen hset
    · intro tokens
      simp only [matParseNot, invParseNot]
      cases tokens with
      | nil => exact ihPrim []
      | cons tok rest =>
        dsimp only
        by_cases htok : tok = "not".toList
        · rw [if_pos htok, if_pos htok]
          cases hma : matParsePrimary m f rest with
          | error e =>
            rw [(ihPrim rest).2 e hma]
            exact BRel_error _ _
          | ok pr =>
            obtain ⟨row2, rest2⟩ := pr
            obtain ⟨s2, hb, hlen2, hset2⟩ := (ihPrim rest).1 row2 rest2 hma
            rw [hb]
            refine BRel_ok _ _ _ _ (by rw [bvNot_length]; exact hlen2) ?_
            rw [docSet_not m.documents hnd row2 hlen2, hset2, hdocs]
        · rw [if_neg htok, if_neg htok]
          exact ihPrim (tok :: rest)
    · intro tokens
      simp only [matParsePrimary, invParsePrimary]
      cases tokens with
      | nil => exact BRel_error _ _
      | cons tok rest =>
        dsimp only
        by_cases htok : tok = "(".toList
        · rw [if_pos htok, if_pos htok]
          cases hma : matParseOr m f rest with
          | error e =>
            rw [(ihOr rest).2 e hma]
            exact BRel_error _ _
          | ok pr =>
            obtain ⟨row2, rest2⟩ := pr
            obtain ⟨s2, hb, hlen2, hset2⟩ := (ihOr rest).1 row2 rest2 hma
            rw [hb]
            cases rest2 with
            | nil => exact BRel_error _ _
            | cons closing rest3 =>
              dsimp only
              by_cases hc : closing = ")".toList
              · rw [if_pos hc, if_pos hc]
                exact BRel_ok _ _ _ _ hlen2 hset2
              · rw [if_neg hc, if_neg hc]
                exact BRel_error _ _
        · rw [if_neg htok, if_neg htok]
          cases hms : m.search_term tok with
          | error e =>
            rw [(search_term_rel m v hrel tok).2 e hms]
            exact BRel_error _ _
          | ok row2 =>
            obtain ⟨s2, hb, hlen2, hset2⟩ := (search_term_rel m v hrel tok).1 row2 hms
            rw [hb]
            exact BRel_ok _ _ _ _ hlen2 hset2

/-- C2: for any coherent incidence-matrix / inverted-index pair and any
query, the two Boolean evaluators agree: a successful matrix evaluation maps
through get_matching_documents to exactly the inverted-index result set, and
failures produce the identical error (this also covers queries with unknown
terms, which the claim excludes: both report the same Term-not-found). -/
theorem boolean_equivalence (m : IncidenceMatrix) (v : InvertedIndex)
    (hrel : bvRelated m v = true) (q : Str) :
    (∀ row, m.search q = .ok row →
        ∃ s, v.search q = .ok s ∧ (m.get_matching_documents row).toFinset = s) ∧
    (∀ e, m.search q = .error e → v.search q = .error e) := by
  have h := (parse_rel m v hrel (4 * (tokenize (to_lowercase q)).length + 4)).1
    (tokenize (to_lowercase q))
  constructor
  · intro row hok
    rw [IncidenceMatrix.search, IncidenceMatrix.searchTokens] at hok
    cases hma : matParseOr m (4 * (tokenize (to_lowercase q)).length + 4)
        (tokenize (to_lowercase q)) with
    | error e =>
      rw [hma] at hok
      cases hok
    | ok pr =>
      obtain ⟨row2, rest2⟩ := pr
      rw [hma] at hok
      dsimp only at hok
      cases hok
      obtain ⟨s, hb, hlen, hset⟩ := h.1 row rest2 hma
      refine ⟨s, ?_, hset⟩
      rw [InvertedIndex.search, InvertedIndex.searchTokens, hb]
  · intro e herr
    rw [IncidenceMatrix.search, IncidenceMatrix.searchTokens] at herr
    cases hma : matParseOr m (4 * (tokenize (to_lowercase q)).length + 4)
        (tokenize (to_lowercase q)) with
    | error e2 =>
      rw [hma] at herr
      dsimp only at herr
      cases herr
      rw [InvertedIndex.search, InvertedIndex.searchTokens, h.2 e hma]
    | ok pr =>
      obtain ⟨row2, rest2⟩ := pr
      rw [hma] at herr
      dsimp only at herr
      cases herr

def matW : IncidenceMatrix := ⟨["aaa".toList], ["d1".toList], [[true]]⟩

def invW : InvertedIndex := ⟨[("aaa".toList, {"d1".toList})], ["d1".toList]⟩

/-- Witness for boolean_equivalence at a concrete coherent pair and query
"aaa": the matrix search yields the row [true], whose document list maps to
the inverted-index result. -/
theorem boolean_equivalence_witness :
    ∃ s, invW.search ("aaa".toList) = .ok s ∧
      (matW.get_matching_documents [true]).toFinset = s :=
  (boolean_equivalence matW invW (by decide) ("aaa".toList)).1 [true] (by decide)
